import Mathlib

/-!
Verification development for the SSA-generation stage
(crates/noirc_evaluator/src/ssa_refactor/ssa_gen/mod.rs).

The codegen functions are shallowly embedded from the source file.  The
helper modules that the source file uses but whose code is not part of the
given sources (value.rs for the Tree and Value model, context.rs for the
FunctionContext helpers, and the SSA builder) are modelled from the
specification; each such definition carries a doc comment starting with
the words Modelled from the spec.
-/

namespace SsaGen

/-! ## Tree model (value.rs) -/

/-- Modelled from the spec: a generic recursive container, either a single
leaf or an ordered list of child trees, used both for types and values. -/
inductive Tree (α : Type) where
  | leaf (a : α)
  | branch (trees : List (Tree α))

instance {α : Type} : Inhabited (Tree α) := ⟨Tree.branch []⟩

mutual

/-- Modelled from the spec: depth-first list of the leaves of a tree. -/
def Tree.flatten {α : Type} : Tree α → List α
  | .leaf a => [a]
  | .branch ts => Tree.flattenList ts

/-- Depth-first list of the leaves of a list of trees, in order. -/
def Tree.flattenList {α : Type} : List (Tree α) → List α
  | [] => []
  | t :: ts => t.flatten ++ Tree.flattenList ts

end

mutual

/-- Modelled from the spec: structure-preserving leaf transform. -/
def Tree.map {α β : Type} (f : α → β) : Tree α → Tree β
  | .leaf a => .leaf (f a)
  | .branch ts => .branch (Tree.mapList f ts)

def Tree.mapList {α β : Type} (f : α → β) : List (Tree α) → List (Tree β)
  | [] => []
  | t :: ts => t.map f :: Tree.mapList f ts

end

/-- The branching structure of a tree, with the leaf data erased. -/
def Tree.shape {α : Type} (t : Tree α) : Tree Unit := t.map (fun _ => ())

mutual

/-- Modelled from the spec: depth-first leaf visitor threading a mutable
state.  The state parameter stands for the mutable captures (the counter
and the builder) of the closures the source passes to for_each. -/
def Tree.for_each {α σ : Type} (f : α → σ → σ) : Tree α → σ → σ
  | .leaf a, st => f a st
  | .branch ts, st => Tree.for_each_list f ts st

def Tree.for_each_list {α σ : Type} (f : α → σ → σ) : List (Tree α) → σ → σ
  | [], st => st
  | t :: ts, st => Tree.for_each_list f ts (Tree.for_each f t st)

end

/-- Modelled from the spec: the leaf-count query, the number of storage
slots one value of the type occupies. -/
def Tree.size_of_type {α : Type} (t : Tree α) : Nat := t.flatten.length

/-! ## Scalar types and values -/

/-- Modelled from the spec: a scalar type is a numeric kind with a bit
width, a boolean, or the unbounded field-element kind. -/
inductive Typ where
  | numeric (bits : Nat)
  | bool
  | field
deriving DecidableEq, Repr

/-- Modelled from the spec: a value is a reference to an already computed
SSA result.  The deferred (mutable-slot) variant of the source can only be
produced by the let / assign / ident handlers, all of which are
unimplemented stubs in the given source, so it never arises here. -/
inductive Value where
  | normal (id : Nat)
deriving DecidableEq, Repr

/-- Resolving a materialized reference returns it unchanged. -/
def Value.eval : Value → Nat
  | .normal i => i

abbrev Values := Tree Value

/-- Modelled from the spec: the unit value is the empty-leaf sentinel tree. -/
def unit_value : Values := .branch []

/-- Modelled from the spec: flatten a value tree to the ordered list of its
resolved leaves, used to build jump-argument lists. -/
def into_value_list (v : Values) : List Nat := v.flatten.map Value.eval

/-! ## SSA builder (modelled from the spec, section 6) -/

inductive BinOp where
  | add | sub | mul | div | md | eq | lt | band | bor | bxor | shl | shr
deriving DecidableEq, Repr

inductive UnaryOp where
  | not | minus
deriving DecidableEq, Repr

/-- Modelled from the spec: the instruction set consumed from the builder. -/
inductive Instr where
  | const (res : Nat) (value : Nat) (ty : Typ)
  | allocate (res : Nat) (size : Nat)
  | store (addr : Nat) (val : Nat)
  | load (res : Nat) (addr : Nat) (offset : Nat) (ty : Typ)
  | binary (res : Nat) (lhs : Nat) (op : BinOp) (rhs : Nat)
  | notI (res : Nat) (v : Nat)
  | cast (res : Nat) (v : Nat) (ty : Typ)
  | constrain (v : Nat)
deriving DecidableEq, Repr

inductive Terminator where
  | jmp (target : Nat) (args : List Nat)
  | jmpif (cond : Nat) (thenBlock : Nat) (elseBlock : Nat)
deriving DecidableEq, Repr

/-- Modelled from the spec: a block has typed parameters, an ordered
instruction list and at most one terminator. -/
structure Block where
  params : List (Nat × Typ) := []
  instrs : List Instr := []
  term : Option Terminator := none
deriving DecidableEq, Repr

instance : Inhabited Block := ⟨{}⟩

/-- Modelled from the spec: the builder state: the blocks of the function
under construction, the active cursor, a fresh-value counter, the global
instruction emission trace (instructions in the order they were appended,
across all blocks), and the recorded scalar type of each value. -/
structure BState where
  blocks : List Block := []
  cur : Nat := 0
  nextValue : Nat := 0
  trace : List Instr := []
  vtys : List (Nat × Typ) := []
deriving DecidableEq, Repr

def modifyAt (l : List Block) (i : Nat) (f : Block → Block) : List Block :=
  match l, i with
  | [], _ => []
  | b :: bs, 0 => f b :: bs
  | b :: bs, n + 1 => b :: modifyAt bs n f

def blockAt (s : BState) (i : Nat) : Block := s.blocks.getD i default

/-- Append an instruction with a fresh result id to the active block. -/
def emit (s : BState) (mk : Nat → Instr) (ty : Typ) : Nat × BState :=
  (s.nextValue,
   { blocks := modifyAt s.blocks s.cur
       (fun b => { b with instrs := b.instrs ++ [mk s.nextValue] })
     cur := s.cur
     nextValue := s.nextValue + 1
     trace := s.trace ++ [mk s.nextValue]
     vtys := (s.nextValue, ty) :: s.vtys })

/-- Append a resultless instruction to the active block. -/
def emitNR (s : BState) (i : Instr) : BState :=
  { s with
    blocks := modifyAt s.blocks s.cur (fun b => { b with instrs := b.instrs ++ [i] })
    trace := s.trace ++ [i] }

def type_of_value (v : Nat) (s : BState) : Typ := ((s.vtys.lookup v).getD .field)

def numeric_constant (value : Nat) (ty : Typ) (s : BState) : Nat × BState :=
  emit s (fun r => .const r value ty) ty

def field_constant (value : Nat) (s : BState) : Nat × BState :=
  numeric_constant value .field s

def insert_allocate (size : Nat) (s : BState) : Nat × BState :=
  emit s (fun r => .allocate r size) .field

def insert_store (addr val : Nat) (s : BState) : BState :=
  emitNR s (.store addr val)

def insert_load (addr offset : Nat) (ty : Typ) (s : BState) : Nat × BState :=
  emit s (fun r => .load r addr offset ty) ty

def insert_binary (lhs : Nat) (op : BinOp) (rhs : Nat) (s : BState) : Nat × BState :=
  emit s (fun r => .binary r lhs op rhs) (type_of_value lhs s)

def insert_not (v : Nat) (s : BState) : Nat × BState :=
  emit s (fun r => .notI r v) (type_of_value v s)

def insert_cast (v : Nat) (ty : Typ) (s : BState) : Nat × BState :=
  emit s (fun r => .cast r v ty) ty

def insert_constrain (v : Nat) (s : BState) : BState :=
  emitNR s (.constrain v)

def insert_block (s : BState) : Nat × BState :=
  (s.blocks.length, { s with blocks := s.blocks ++ [{}] })

def switch_to_block (b : Nat) (s : BState) : BState := { s with cur := b }

def terminate_with_jmp (target : Nat) (args : List Nat) (s : BState) : BState :=
  { s with blocks := modifyAt s.blocks s.cur (fun b => { b with term := some (.jmp target args) }) }

def terminate_with_jmpif (cond thenBlock elseBlock : Nat) (s : BState) : BState :=
  { s with blocks :=
      modifyAt s.blocks s.cur (fun b => { b with term := some (.jmpif cond thenBlock elseBlock) }) }

def add_block_parameter (b : Nat) (ty : Typ) (s : BState) : Nat × BState :=
  (s.nextValue,
   { s with
     nextValue := s.nextValue + 1
     vtys := (s.nextValue, ty) :: s.vtys
     blocks := modifyAt s.blocks b (fun bl => { bl with params := bl.params ++ [(s.nextValue, ty)] }) })

/-- Modelled from the spec: FunctionContext helper computing the address
at a constant offset from a base; at offset zero the base itself is used,
otherwise a field constant and an add instruction are emitted. -/
def make_offset (addr : Nat) (offset : Nat) (s : BState) : Nat × BState :=
  if offset = 0 then (addr, s)
  else
    let (c, s1) := field_constant offset s
    insert_binary addr .add c s1

mutual

/-- Modelled from the spec: FunctionContext helper mapping a stateful
closure over the leaves of a type tree, producing a value tree of the same
shape.  The σ component stands for the mutable captures of the closure. -/
def map_type {σ : Type} (f : Typ → σ × BState → Value × (σ × BState)) :
    Tree Typ → σ × BState → Values × (σ × BState)
  | .leaf t, st =>
      let (v, st1) := f t st
      (.leaf v, st1)
  | .branch ts, st =>
      let (vs, st1) := map_type_list f ts st
      (.branch vs, st1)

def map_type_list {σ : Type} (f : Typ → σ × BState → Value × (σ × BState)) :
    List (Tree Typ) → σ × BState → List Values × (σ × BState)
  | [], st => ([], st)
  | t :: ts, st =>
      let (v, st1) := map_type f t st
      let (vs, st2) := map_type_list f ts st1
      (v :: vs, st2)

end

/-! ## Expression syntax (the monomorphized ast consumed by this stage) -/

mutual

/-- Literals of the input ast.  Scalar types are used where the source
calls convert_type / convert_non_tuple_type on the frontend types. -/
inductive Lit where
  | int (value : Nat) (ty : Typ)
  | bool (value : Bool)
  | str (bytes : List Nat)
  | arr (contents : List Expr) (element_type : Tree Typ)

/-- The expression kinds of the input ast (spec section 3).  Payloads of
the kinds whose handlers are unimplemented stubs in the source (ident,
for, call, let, assign) are kept schematic. -/
inductive Expr where
  | ident (name : String)
  | lit (l : Lit)
  | block (exprs : List Expr)
  | unary (op : UnaryOp) (rhs : Expr)
  | binary (lhs : Expr) (op : BinOp) (rhs : Expr)
  | index (collection : Expr) (idx : Expr) (element_type : Tree Typ)
  | cast (lhs : Expr) (ty : Typ)
  | forE (idxName : String) (startRange endRange body : Expr)
  | ifE (condition : Expr) (consequence : Expr) (alternative : Option Expr) (typ : Tree Typ)
  | tuple (fields : List Expr)
  | extractTupleField (tupleExpr : Expr) (idx : Nat)
  | call (func : Nat) (args : List Expr)
  | letE (name : String) (defn : Expr)
  | constrainE (e : Expr) (loc : Nat)
  | assign (lhs : String) (rhs : Expr)
  | semi (e : Expr)

end

/-! ## Non-recursive codegen pieces (from mod.rs) -/

/-- codegen_ident is an unimplemented stub in the source (todo), so it
aborts on every input. -/
def codegen_ident (_name : String) : BState → Option (Values × BState) := fun _ => none

/-- codegen_for is an unimplemented stub in the source (todo). -/
def codegen_for (_i : String) (_startR _endR _body : Expr) :
    BState → Option (Values × BState) := fun _ => none

/-- codegen_call is an unimplemented stub in the source (todo). -/
def codegen_call (_f : Nat) (_args : List Expr) : BState → Option (Values × BState) :=
  fun _ => none

/-- codegen_let is an unimplemented stub in the source (todo). -/
def codegen_let (_n : String) (_d : Expr) : BState → Option (Values × BState) := fun _ => none

/-- codegen_assign is an unimplemented stub in the source (todo). -/
def codegen_assign (_l : String) (_r : Expr) : BState → Option (Values × BState) := fun _ => none

/-- The store closure of codegen_array: compute the address at the running
offset from the base, store the resolved leaf there, advance the offset. -/
def store_leaf (array : Nat) (v : Value) : Nat × BState → Nat × BState :=
  fun (i, s) =>
    let (address, s1) := make_offset array i s
    let s2 := insert_store address v.eval s1
    (i + 1, s2)

/-- codegen_array from mod.rs: allocate element_type.size_of_type times
the element count slots (aborting when that does not fit a u32), store
every element leaf depth-first at consecutive offsets, and return the base
address as a single-leaf value tree. -/
def codegen_array (elements : List Values) (element_type : Tree Typ) (s : BState) :
    Option (Values × BState) :=
  let size := element_type.size_of_type * elements.length
  if size < 4294967296 then
    let (array, s1) := insert_allocate size s
    let (_, s2) := Tree.for_each_list (store_leaf array) elements (0, s1)
    some (.leaf (.normal array), s2)
  else none

/-- The per-byte constants of a string literal (field-element typed). -/
def str_elements : List Nat → BState → List Values × BState
  | [], s => ([], s)
  | b :: bs, s =>
      let (r, s1) := numeric_constant b .field s
      let (rest, s2) := str_elements bs s1
      (.leaf (.normal r) :: rest, s2)

/-- The load closure of codegen_index: compute the address at the running
leaf offset from the multiplied base index, load with the leaf type. -/
def load_leaf (array base_index : Nat) (ty : Typ) :
    Nat × BState → Value × (Nat × BState) :=
  fun (field_index, s) =>
    let (offset, s1) := make_offset base_index field_index s
    let (r, s2) := insert_load array offset ty s1
    (.normal r, (field_index + 1, s2))

/-- The closure of codegen_if adding one end-block parameter per leaf of
the result type. -/
def add_param_leaf (end_block : Nat) (ty : Typ) :
    Unit × BState → Value × (Unit × BState) :=
  fun (u, s) =>
    let (p, s1) := add_block_parameter end_block ty s
    (.normal p, (u, s1))

/-- The merge-block epilogue of codegen_if when an else branch exists:
create the end block, add one parameter per leaf of the result type,
terminate the current (else) block and the then block with jumps to the
end block carrying the respective flattened values, and resume at the end
block with the value tree rebuilt from the parameters. -/
def codegen_if_end (then_block : Nat) (then_value else_value : Values)
    (typ : Tree Typ) (s8 : BState) : Values × BState :=
  let (end_block, s9) := insert_block s8
  let (result, us10) := map_type (add_param_leaf end_block) typ ((), s9)
  let s11 := terminate_with_jmp end_block (into_value_list else_value) us10.2
  let s12 := switch_to_block then_block s11
  let s13 := terminate_with_jmp end_block (into_value_list then_value) s12
  let s14 := switch_to_block end_block s13
  (result, s14)

/-- Sequencing of fallible translation steps (the ? operator / implicit
panic propagation of the source, made explicit). -/
def obind {α β : Type} (x : Option α) (f : α → Option β) : Option β :=
  match x with
  | none => none
  | some a => f a

/-! ## The recursive codegen family (mod.rs) -/

mutual

def codegen_expression : Expr → BState → Option (Values × BState)
  | .ident n, s => codegen_ident n s
  | .lit l, s => codegen_literal l s
  | .block exprs, s => codegen_block exprs s
  | .unary op rhs, s => codegen_unary op rhs s
  | .binary lhs op rhs, s => codegen_binary lhs op rhs s
  | .index c i ty, s => codegen_index c i ty s
  | .cast l ty, s => codegen_cast l ty s
  | .forE a b c d, s => codegen_for a b c d s
  | .ifE c t a ty, s => codegen_if c t a ty s
  | .tuple fields, s => codegen_tuple fields s
  | .extractTupleField t i, s => codegen_extract_tuple_field t i s
  | .call f args, s => codegen_call f args s
  | .letE n d, s => codegen_let n d s
  | .constrainE e _loc, s => codegen_constrain e s
  | .assign l r, s => codegen_assign l r s
  | .semi e, s => codegen_semi e s
termination_by e _ => (sizeOf e, 1)

/-- codegen_non_tuple_expression: unwrap a single-leaf result, aborting
(panic in the source) when the expression produced a tuple tree. -/
def codegen_non_tuple_expression (e : Expr) (s : BState) : Option (Nat × BState) :=
  match codegen_expression e s with
  | none => none
  | some (.branch _, _) => none
  | some (.leaf value, s1) => some (value.eval, s1)
termination_by (sizeOf e, 2)

def codegen_literal : Lit → BState → Option (Values × BState)
  | .arr contents element_type, s =>
      match codegen_list contents s with
      | none => none
      | some (elements, s1) => codegen_array elements element_type s1
  | .int value ty, s =>
      let (r, s1) := numeric_constant value ty s
      some (.leaf (.normal r), s1)
  | .bool value, s =>
      let (r, s1) := numeric_constant (if value then 1 else 0) .bool s
      some (.leaf (.normal r), s1)
  | .str bytes, s =>
      let (elements, s1) := str_elements bytes s
      codegen_array elements (.leaf .field) s1
termination_by l _ => (sizeOf l, 3)

/-- The element-wise translation of a list of expressions (vecmap in the
source), left to right. -/
def codegen_list : List Expr → BState → Option (List Values × BState)
  | [], s => some ([], s)
  | e :: es, s =>
      match codegen_expression e s with
      | none => none
      | some (v, s1) =>
          match codegen_list es s1 with
          | none => none
          | some (vs, s2) => some (v :: vs, s2)
termination_by es _ => (sizeOf es, 1)

def codegen_block (exprs : List Expr) (s : BState) : Option (Values × BState) :=
  codegen_block_loop unit_value exprs s
termination_by (sizeOf exprs, 3)

/-- The fold of codegen_block: the result of the last expression, the unit
value for an empty block. -/
def codegen_block_loop (result : Values) : List Expr → BState → Option (Values × BState)
  | [], s => some (result, s)
  | e :: es, s =>
      match codegen_expression e s with
      | none => none
      | some (v, s1) => codegen_block_loop v es s1
termination_by es _ => (sizeOf es, 1)

def codegen_unary (op : UnaryOp) (rhsE : Expr) (s : BState) : Option (Values × BState) :=
  match codegen_non_tuple_expression rhsE s with
  | none => none
  | some (rhs, s1) =>
      match op with
      | .not =>
          let (r, s2) := insert_not rhs s1
          some (.leaf (.normal r), s2)
      | .minus =>
          let typ := type_of_value rhs s1
          let (zeroC, s2) := numeric_constant 0 typ s1
          let (r, s3) := insert_binary zeroC .sub rhs s2
          some (.leaf (.normal r), s3)
termination_by (sizeOf rhsE, 3)

def codegen_binary (lhsE : Expr) (op : BinOp) (rhsE : Expr) (s : BState) :
    Option (Values × BState) :=
  match codegen_non_tuple_expression lhsE s with
  | none => none
  | some (lhs, s1) =>
      match codegen_non_tuple_expression rhsE s1 with
      | none => none
      | some (rhs, s2) =>
          let (r, s3) := insert_binary lhs op rhs s2
          some (.leaf (.normal r), s3)
termination_by (sizeOf (Expr.binary lhsE op rhsE), 0)

def codegen_index (collection idx : Expr) (element_type : Tree Typ) (s : BState) :
    Option (Values × BState) :=
  match codegen_non_tuple_expression collection s with
  | none => none
  | some (array, s1) =>
      match codegen_non_tuple_expression idx s1 with
      | none => none
      | some (base_offset, s2) =>
          let (ts, s3) := field_constant element_type.size_of_type s2
          let (base_index, s4) := insert_binary base_offset .mul ts s3
          let (vals, (_, s5)) := map_type (load_leaf array base_index) element_type (0, s4)
          some (vals, s5)
termination_by (sizeOf (Expr.index collection idx element_type), 0)

def codegen_cast (lhsE : Expr) (ty : Typ) (s : BState) : Option (Values × BState) :=
  match codegen_non_tuple_expression lhsE s with
  | none => none
  | some (lhs, s1) =>
      let (r, s2) := insert_cast lhs ty s1
      some (.leaf (.normal r), s2)
termination_by (sizeOf lhsE, 3)

def codegen_if (cond cons : Expr) (alt : Option Expr) (typ : Tree Typ) (s : BState) :
    Option (Values × BState) :=
  obind (codegen_non_tuple_expression cond s) (fun cs =>
    let condition := cs.1
    let tb := insert_block cs.2
    let then_block := tb.1
    let eb := insert_block tb.2
    let else_block := eb.1
    let s4 := terminate_with_jmpif condition then_block else_block eb.2
    let s5 := switch_to_block then_block s4
    obind (codegen_expression cons s5) (fun ts =>
      match alt with
      | some alternative =>
          obind (codegen_expression alternative (switch_to_block else_block ts.2))
            (fun es => some (codegen_if_end then_block ts.1 es.1 typ es.2))
      | none =>
          some (unit_value, switch_to_block else_block
            (terminate_with_jmp else_block [] ts.2))))
termination_by (sizeOf (Expr.ifE cond cons alt typ), 0)

def codegen_tuple (fields : List Expr) (s : BState) : Option (Values × BState) :=
  match codegen_list fields s with
  | none => none
  | some (vs, s1) => some (.branch vs, s1)
termination_by (sizeOf fields, 3)

def codegen_extract_tuple_field (tupleE : Expr) (idx : Nat) (s : BState) :
    Option (Values × BState) :=
  match codegen_expression tupleE s with
  | none => none
  | some (.branch trees, s1) =>
      if h : idx < trees.length then some (trees.get ⟨idx, h⟩, s1) else none
  | some (.leaf _, _) => none
termination_by (sizeOf tupleE, 3)

def codegen_constrain (e : Expr) (s : BState) : Option (Values × BState) :=
  match codegen_non_tuple_expression e s with
  | none => none
  | some (boolean, s1) =>
      let s2 := insert_constrain boolean s1
      some (unit_value, s2)
termination_by (sizeOf e, 3)

def codegen_semi (e : Expr) (s : BState) : Option (Values × BState) :=
  match codegen_expression e s with
  | none => none
  | some (_, s1) => some (unit_value, s1)
termination_by (sizeOf e, 3)

end

/-- The builder state of a fresh function context: one empty entry block,
cursor on it. -/
def initState : BState := { blocks := [{}] }

/-! ## Execution semantics of the emitted instructions

A small-step interpretation of the instruction trace, used to state the
memory-layout and round-trip properties: an environment mapping value ids
to numbers, a flat memory mapping addresses to numbers, and an allocation
pointer for fresh base addresses. -/

structure EState where
  env : Nat → Nat
  mem : Nat → Nat
  allocNext : Nat

def updFn (f : Nat → Nat) (k v : Nat) : Nat → Nat := fun x => if x = k then v else f x

def denoteOp : BinOp → Nat → Nat → Nat
  | .add, a, b => a + b
  | .sub, a, b => a - b
  | .mul, a, b => a * b
  | .div, a, b => a / b
  | .md, a, b => a % b
  | .eq, a, b => if a = b then 1 else 0
  | .lt, a, b => if a < b then 1 else 0
  | .band, a, b => Nat.land a b
  | .bor, a, b => Nat.lor a b
  | .bxor, a, b => Nat.xor a b
  | .shl, a, b => a <<< b
  | .shr, a, b => a >>> b

def step (es : EState) : Instr → EState
  | .const r v _ => { es with env := updFn es.env r v }
  | .allocate r size =>
      { es with env := updFn es.env r es.allocNext, allocNext := es.allocNext + size }
  | .store a v => { es with mem := updFn es.mem (es.env a) (es.env v) }
  | .load r a off _ => { es with env := updFn es.env r (es.mem (es.env a + es.env off)) }
  | .binary r l op rhs => { es with env := updFn es.env r (denoteOp op (es.env l) (es.env rhs)) }
  | .notI r v => { es with env := updFn es.env r (if es.env v = 0 then 1 else 0) }
  | .cast r v _ => { es with env := updFn es.env r (es.env v) }
  | .constrain _ => es

def execL (es : EState) (l : List Instr) : EState := l.foldl step es

/-! ## Instruction shape predicates -/

/-- The result id defined by an instruction, if any. -/
def Instr.res : Instr → Option Nat
  | .const r _ _ => some r
  | .allocate r _ => some r
  | .load r _ _ _ => some r
  | .binary r _ _ _ => some r
  | .notI r _ => some r
  | .cast r _ _ => some r
  | .store _ _ => none
  | .constrain _ => none

def Instr.isStore : Instr → Bool
  | .store _ _ => true
  | _ => false

def Instr.isAlloc : Instr → Bool
  | .allocate _ _ => true
  | _ => false

def Instr.allocSize : Instr → Option Nat
  | .allocate _ size => some size
  | _ => none

def Instr.storeVal : Instr → Option Nat
  | .store _ v => some v
  | _ => none

def Instr.loadTy : Instr → Option Typ
  | .load _ _ _ ty => some ty
  | _ => none

def Instr.isConst : Instr → Bool
  | .const _ _ _ => true
  | _ => false

def Instr.isAddOf : Instr → Bool
  | .binary _ _ .add _ => true
  | _ => false

def Instr.isLoad : Instr → Bool
  | .load _ _ _ _ => true
  | _ => false

/-- All result ids of the instructions lie in the interval lo ≤ r < hi. -/
def resWithin (lo hi : Nat) (l : List Instr) : Prop :=
  ∀ i ∈ l, ∀ r, i.res = some r → lo ≤ r ∧ r < hi

/-! ## Pure literal trees (integer literals and tuples of them)

Used to state the construction / indexing round trip on arrays whose
elements are compile-time literal trees. -/

mutual

def isLitTree : Expr → Bool
  | .lit (.int _ _) => true
  | .tuple fields => isLitList fields
  | _ => false

def isLitList : List Expr → Bool
  | [] => true
  | e :: es => isLitTree e && isLitList es

end

mutual

/-- The depth-first list of integer leaf values of a pure literal tree. -/
def litLeaves : Expr → List Nat
  | .lit (.int v _) => [v]
  | .tuple fields => litLeavesList fields
  | _ => []

def litLeavesList : List Expr → List Nat
  | [] => []
  | e :: es => litLeaves e ++ litLeavesList es

end

/-- Concatenation of a list of lists (used to relate flattened leaf lists
to their per-element grouping). -/
def joinAll {β : Type} : List (List β) → List β
  | [] => []
  | l :: ls => l ++ joinAll ls

/-! ## Program driver (mod.rs 19-35)

generate_ssa in mod.rs translates the entry function body with
codegen_expression and then drains the worklist, translating each popped
function body the same way.  The shared context it threads
(SharedContext::new and pop_next_function_in_queue) lives in context.rs,
which is not among the given sources: it is modelled from the spec as a
FIFO worklist of (source id, reserved target id) pairs that starts empty.
The only operation that could reserve an id and enqueue work is the one a
call site performs inside codegen_call, and codegen_call (mod.rs 226-228)
is an unimplemented todo stub that aborts: in this embedding a body
translation therefore either aborts at its first call site or leaves the
worklist untouched. -/

structure SFunction where
  name : String
  body : Expr

instance : Inhabited SFunction := ⟨⟨"", .tuple []⟩⟩

structure SProgram where
  functions : List SFunction
  main_id : Nat := 0

/-- Modelled from the spec: the shared driver state: the map from source
ids to reserved target ids, the FIFO worklist of (source, target) pairs
discovered but not yet translated, and a fresh target-id counter.
SharedContext::new starts all three empty. -/
structure SharedContext where
  function_map : List (Nat × Nat) := []
  function_queue : List (Nat × Nat) := []
  function_counter : Nat := 0

/-- Modelled from the spec: pop the next worklist entry. -/
def pop_next_function_in_queue (ctx : SharedContext) : Option ((Nat × Nat) × SharedContext) :=
  match ctx.function_queue with
  | [] => none
  | p :: rest => some (p, { ctx with function_queue := rest })

/-- The drain loop of generate_ssa (mod.rs 29-34), with explicit fuel: pop
a (source id, reserved target id) pair, translate the popped function body
with codegen_expression (an abort there aborts the pass), repeat; the
source ids are returned in translation order.  Exhausting the fuel with
work still queued counts as an abort; since nothing in this embedding ever
enqueues (codegen_call aborts first), any fuel drains an initially empty
queue. -/
def drive_loop (prog : SProgram) : Nat → SharedContext → Option (List Nat × SharedContext)
  | 0, ctx =>
      match pop_next_function_in_queue ctx with
      | none => some ([], ctx)
      | some _ => none
  | fuel + 1, ctx =>
      match pop_next_function_in_queue ctx with
      | none => some ([], ctx)
      | some ((src, _tgt), ctx1) =>
          match codegen_expression (prog.functions.getD src default).body initState with
          | none => none
          | some _ =>
              match drive_loop prog fuel ctx1 with
              | none => none
              | some (rest, ctx2) => some (src :: rest, ctx2)

/-- generate_ssa from mod.rs 19-35: start from the empty shared context,
translate the entry function body with codegen_expression (a panic there
aborts the whole pass), then drain the worklist.  Returns the source ids
in translation order, or none when translation aborts. -/
def generate_ssa (prog : SProgram) : Option (List Nat × SharedContext) :=
  match codegen_expression (prog.functions.getD prog.main_id default).body initState with
  | none => none
  | some _ =>
      match drive_loop prog prog.functions.length {} with
      | none => none
      | some (rest, ctxf) => some (prog.main_id :: rest, ctxf)

/-- A three-function program in which main calls f, f calls g, and g calls
f back (mutual recursion between f and g). -/
def mutualProg : SProgram :=
  { functions :=
      [ { name := "main", body := .call 1 [] }
      , { name := "f", body := .call 2 [] }
      , { name := "g", body := .call 1 [] } ]
    main_id := 0 }

/-! ## Basic lemmas: blocks, emission, execution -/

theorem obind_none {α β : Type} (f : α → Option β) : obind none f = none := rfl

theorem obind_some {α β : Type} (a : α) (f : α → Option β) : obind (some a) f = f a := rfl

theorem modifyAt_length (l : List Block) (i : Nat) (f : Block → Block) :
    (modifyAt l i f).length = l.length := by
  induction l generalizing i with
  | nil => simp [modifyAt]
  | cons b bs ih =>
    cases i with
    | zero => simp [modifyAt]
    | succ n => simp [modifyAt, ih]

theorem getD_modifyAt_self (l : List Block) (i : Nat) (f : Block → Block) (d : Block)
    (h : i < l.length) : (modifyAt l i f).getD i d = f (l.getD i d) := by
  induction l generalizing i with
  | nil => simp at h
  | cons b bs ih =>
    cases i with
    | zero => simp [modifyAt]
    | succ n =>
      simp only [modifyAt, List.getD_cons_succ]
      exact ih n (by simpa using h)

theorem getD_modifyAt_ne (l : List Block) (i j : Nat) (f : Block → Block) (d : Block)
    (h : j ≠ i) : (modifyAt l i f).getD j d = l.getD j d := by
  induction l generalizing i j with
  | nil => simp [modifyAt]
  | cons b bs ih =>
    cases i with
    | zero =>
      cases j with
      | zero => exact absurd rfl h
      | succ m => simp [modifyAt]
    | succ n =>
      cases j with
      | zero => simp [modifyAt]
      | succ m =>
        simp only [modifyAt, List.getD_cons_succ]
        exact ih n m (fun hh => h (by omega))

theorem execL_append (es : EState) (a b : List Instr) :
    execL es (a ++ b) = execL (execL es a) b := by
  simp [execL, List.foldl_append]

theorem execL_cons (es : EState) (i : Instr) (l : List Instr) :
    execL es (i :: l) = execL (step es i) l := rfl

theorem execL_nil (es : EState) : execL es [] = es := rfl

/-- A step does not change the environment at ids that are not the
instruction result. -/
theorem step_env_ne (es : EState) (i : Instr) (x : Nat)
    (h : ∀ r, i.res = some r → x ≠ r) : (step es i).env x = es.env x := by
  cases i with
  | const r v ty => simp [step, updFn, h r rfl]
  | allocate r size => simp [step, updFn, h r rfl]
  | store a v => rfl
  | load r a off ty => simp [step, updFn, h r rfl]
  | binary r l op rhs => simp [step, updFn, h r rfl]
  | notI r v => simp [step, updFn, h r rfl]
  | cast r v ty => simp [step, updFn, h r rfl]
  | constrain v => rfl

theorem execL_env_lt (l : List Instr) (es : EState) (lo x : Nat)
    (hres : ∀ i ∈ l, ∀ r, i.res = some r → lo ≤ r) (hx : x < lo) :
    (execL es l).env x = es.env x := by
  induction l generalizing es with
  | nil => rfl
  | cons i il ih =>
    rw [execL_cons, ih (step es i) (fun j hj => hres j (List.mem_cons_of_mem i hj))]
    exact step_env_ne es i x (fun r hr => by
      have := hres i (List.mem_cons_self i il) r hr
      omega)

theorem step_mem_of_not_store (es : EState) (i : Instr) (h : i.isStore = false) :
    (step es i).mem = es.mem := by
  cases i <;> simp_all [step, Instr.isStore]

theorem execL_mem_of_not_store (l : List Instr) (es : EState)
    (h : ∀ i ∈ l, i.isStore = false) : (execL es l).mem = es.mem := by
  induction l generalizing es with
  | nil => rfl
  | cons i il ih =>
    rw [execL_cons, ih (step es i) (fun j hj => h j (List.mem_cons_of_mem i hj)),
      step_mem_of_not_store es i (h i (List.mem_cons_self i il))]

theorem step_allocNext_of_not_alloc (es : EState) (i : Instr) (h : i.isAlloc = false) :
    (step es i).allocNext = es.allocNext := by
  cases i <;> simp_all [step, Instr.isAlloc]

theorem execL_allocNext_of_not_alloc (l : List Instr) (es : EState)
    (h : ∀ i ∈ l, i.isAlloc = false) : (execL es l).allocNext = es.allocNext := by
  induction l generalizing es with
  | nil => rfl
  | cons i il ih =>
    rw [execL_cons, ih (step es i) (fun j hj => h j (List.mem_cons_of_mem i hj)),
      step_allocNext_of_not_alloc es i (h i (List.mem_cons_self i il))]

/-- resWithin is monotone in the bounds. -/
theorem resWithin_mono {lo hi lo' hi' : Nat} {l : List Instr} (h : resWithin lo hi l)
    (h1 : lo' ≤ lo) (h2 : hi ≤ hi') : resWithin lo' hi' l := by
  intro i hi3 r hr
  have := h i hi3 r hr
  omega

theorem resWithin_append {lo mid hi : Nat} {a b : List Instr}
    (ha : resWithin lo mid a) (hb : resWithin mid hi b) (h1 : lo ≤ mid) (h2 : mid ≤ hi) :
    resWithin lo hi (a ++ b) := by
  intro i hi3 r hr
  rcases List.mem_append.1 hi3 with h3 | h3
  · have := ha i h3 r hr; omega
  · have := hb i h3 r hr; omega

theorem resWithin_nil (lo hi : Nat) : resWithin lo hi [] := by
  intro i hi3
  simp at hi3

/-! ## Basic lemmas: trees -/

theorem Tree.flattenList_eq (ts : List (Tree Value)) :
    Tree.flattenList ts = joinAll (ts.map Tree.flatten) := by
  induction ts with
  | nil => simp [Tree.flattenList, joinAll]
  | cons t ts ih => simp [Tree.flattenList, joinAll, ih]

theorem litLeavesList_eq (es : List Expr) :
    litLeavesList es = joinAll (es.map litLeaves) := by
  induction es with
  | nil => simp [litLeavesList, joinAll]
  | cons e es ih => simp [litLeavesList, joinAll, ih]

/-- Indexing a concatenation of equal-length chunks. -/
theorem joinAll_getD_uniform {β : Type} (L : List (List β)) (K e j : Nat) (d : β)
    (hK : ∀ l ∈ L, l.length = K) (he : e < L.length) (hj : j < K) :
    (joinAll L).getD (e * K + j) d = (L.getD e []).getD j d := by
  induction L generalizing e with
  | nil => simp at he
  | cons l ls ih =>
    cases e with
    | zero =>
      have hl : l.length = K := hK l (List.mem_cons_self _ _)
      simp only [joinAll, Nat.zero_mul, Nat.zero_add, List.getD_cons_zero]
      rw [List.getD_append]
      omega
    | succ n =>
      have hl : l.length = K := hK l (List.mem_cons_self _ _)
      have hmul : (n + 1) * K = n * K + K := by ring
      simp only [joinAll, List.getD_cons_succ]
      rw [List.getD_append_right]
      · have harith : (n + 1) * K + j - l.length = n * K + j := by omega
        rw [harith]
        exact ih n (fun x hx => hK x (List.mem_cons_of_mem _ hx)) (by simpa using he)
      · omega

theorem joinAll_length {β : Type} (L : List (List β)) (K : Nat)
    (hK : ∀ l ∈ L, l.length = K) : (joinAll L).length = L.length * K := by
  induction L with
  | nil => simp [joinAll]
  | cons l ls ih =>
    simp only [joinAll, List.length_append, List.length_cons]
    rw [hK l (List.mem_cons_self _ _), ih (fun x hx => hK x (List.mem_cons_of_mem _ hx))]
    ring

theorem Tree.mapList_eq_map {α β : Type} (f : α → β) (ts : List (Tree α)) :
    Tree.mapList f ts = ts.map (Tree.map f) := by
  induction ts with
  | nil => simp [Tree.mapList]
  | cons t ts ih => simp [Tree.mapList, ih]

theorem Tree.shape_leaf {α : Type} (a : α) : (Tree.leaf a).shape = .leaf () := rfl

theorem Tree.shape_branch {α : Type} (ts : List (Tree α)) :
    (Tree.branch ts).shape = .branch (ts.map Tree.shape) := by
  simp [Tree.shape, Tree.map, Tree.mapList_eq_map]

/-! ## The end-block parameter pass of codegen_if -/

theorem range'_split (s a b : Nat) :
    List.range' s (a + b) = List.range' s a ++ List.range' (s + a) b := by
  have h := List.range'_append s a b 1
  rw [Nat.one_mul] at h
  rw [Nat.add_comm a b]
  exact h.symm

mutual

theorem mtp_tree (eb : Nat) (t : Tree Typ) (s : BState) :
    ∃ res s', map_type (add_param_leaf eb) t ((), s) = (res, ((), s')) ∧
      Tree.shape res = Tree.shape t ∧
      res.flatten.map Value.eval = List.range' s.nextValue t.flatten.length ∧
      s'.nextValue = s.nextValue + t.flatten.length ∧
      s'.trace = s.trace ∧ s'.cur = s.cur ∧ s'.blocks.length = s.blocks.length ∧
      (∀ b, b ≠ eb → blockAt s' b = blockAt s b) ∧
      (eb < s.blocks.length →
        (blockAt s' eb).params
          = (blockAt s eb).params
            ++ (List.range' s.nextValue t.flatten.length).zip t.flatten) := by
  match t with
  | .leaf ty =>
    refine ⟨.leaf (.normal s.nextValue),
      (add_block_parameter eb ty s).2, ?_, ?_, ?_, ?_, ?_, ?_, ?_, ?_, ?_⟩
    · simp [map_type, add_param_leaf, add_block_parameter]
    · rfl
    · simp [Tree.flatten, Value.eval, List.range']
    · simp [Tree.flatten, add_block_parameter]
    · rfl
    · rfl
    · simp [add_block_parameter, modifyAt_length]
    · intro b hb
      simp only [add_block_parameter, blockAt]
      exact getD_modifyAt_ne _ _ _ _ _ hb
    · intro heb
      simp only [add_block_parameter, blockAt, Tree.flatten]
      rw [getD_modifyAt_self _ _ _ _ heb]
      simp [List.range']
  | .branch ts =>
    obtain ⟨vs, s', heq, hsh, hfl, hnv, htr, hcur, hbl, hob, hpar⟩ := mtp_list eb ts s
    refine ⟨.branch vs, s', by simp [map_type, heq], ?_, ?_, ?_, htr, hcur, hbl, hob, hpar⟩
    · rw [Tree.shape_branch, Tree.shape_branch, hsh]
    · simpa [Tree.flatten] using hfl
    · simpa [Tree.flatten] using hnv

theorem mtp_list (eb : Nat) (ts : List (Tree Typ)) (s : BState) :
    ∃ vs s', map_type_list (add_param_leaf eb) ts ((), s) = (vs, ((), s')) ∧
      vs.map Tree.shape = ts.map Tree.shape ∧
      (Tree.flattenList vs).map Value.eval
        = List.range' s.nextValue (Tree.flattenList ts).length ∧
      s'.nextValue = s.nextValue + (Tree.flattenList ts).length ∧
      s'.trace = s.trace ∧ s'.cur = s.cur ∧ s'.blocks.length = s.blocks.length ∧
      (∀ b, b ≠ eb → blockAt s' b = blockAt s b) ∧
      (eb < s.blocks.length →
        (blockAt s' eb).params
          = (blockAt s eb).params
            ++ (List.range' s.nextValue (Tree.flattenList ts).length).zip
                (Tree.flattenList ts)) := by
  match ts with
  | [] =>
    exact ⟨[], s, rfl, rfl, by simp [Tree.flattenList], by simp [Tree.flattenList], rfl, rfl,
      rfl, fun _ _ => rfl, fun _ => by simp [Tree.flattenList]⟩
  | t :: ts =>
    obtain ⟨v, s1, heq1, hsh1, hfl1, hnv1, htr1, hcur1, hbl1, hob1, hpar1⟩ := mtp_tree eb t s
    obtain ⟨vs, s2, heq2, hsh2, hfl2, hnv2, htr2, hcur2, hbl2, hob2, hpar2⟩ := mtp_list eb ts s1
    have hL : (Tree.flattenList (t :: ts)).length
        = t.flatten.length + (Tree.flattenList ts).length := by
      simp [Tree.flattenList]
    refine ⟨v :: vs, s2, by simp [map_type_list, heq1, heq2], ?_, ?_, by omega,
      htr2.trans htr1, hcur2.trans hcur1, hbl2.trans hbl1, ?_, ?_⟩
    · simp [hsh1, hsh2]
    · have hr : List.range' s1.nextValue (Tree.flattenList ts).length
          = List.range' (s.nextValue + t.flatten.length) (Tree.flattenList ts).length := by
        rw [hnv1]
      simp only [Tree.flattenList, List.map_append, hfl1, hfl2, hr, List.length_append]
      rw [range'_split]
    · intro b hb
      rw [hob2 b hb, hob1 b hb]
    · intro heb
      have heb1 : eb < s1.blocks.length := by omega
      rw [hpar2 heb1, hpar1 heb, hnv1]
      rw [List.append_assoc]
      congr 1
      have hlen : (Tree.flattenList (t :: ts))
          = t.flatten ++ Tree.flattenList ts := by simp [Tree.flattenList]
      rw [hlen, List.length_append, range'_split,
        List.zip_append (by simp)]

end

/-! ## The load pass of codegen_index -/

mutual

theorem ld_tree (array base_index : Nat) (t : Tree Typ) (fi : Nat) (s : BState) :
    ∃ vals s',
      map_type (load_leaf array base_index) t (fi, s)
        = (vals, (fi + t.flatten.length, s')) ∧
      Tree.shape vals = Tree.shape t ∧
      vals.flatten.length = t.flatten.length ∧
      s.nextValue ≤ s'.nextValue ∧
      s'.cur = s.cur ∧
      (∀ w ∈ vals.flatten, w.eval < s'.nextValue) ∧
      ∃ d, s'.trace = s.trace ++ d ∧
        (∀ i ∈ d, i.isConst = true ∨ i.isAddOf = true ∨ i.isLoad = true) ∧
        d.filterMap Instr.loadTy = t.flatten ∧
        resWithin s.nextValue s'.nextValue d ∧
        (∀ es x, x < s.nextValue → (execL es d).env x = es.env x) ∧
        (∀ es, (execL es d).mem = es.mem) ∧
        (∀ es, (execL es d).allocNext = es.allocNext) ∧
        (array < s.nextValue → base_index < s.nextValue →
          ∀ es j, j < t.flatten.length →
            (execL es d).env ((vals.flatten.getD j (Value.normal 0)).eval)
              = es.mem (es.env array + (es.env base_index + (fi + j)))) := by
  match t with
  | .leaf ty =>
    by_cases hfi : fi = 0
    · subst hfi
      refine ⟨.leaf (.normal s.nextValue), (insert_load array base_index ty s).2,
        ?_, rfl, rfl, ?_, rfl, ?_, [.load s.nextValue array base_index ty],
        ?_, ?_, ?_, ?_, ?_, ?_, ?_, ?_⟩
      · simp [map_type, load_leaf, make_offset, insert_load, emit, Tree.flatten]
      · simp [insert_load, emit]
      · intro w hw
        simp [Tree.flatten] at hw
        simp [hw, Value.eval, insert_load, emit]
      · simp [insert_load, emit]
      · intro i hi
        simp at hi
        simp [hi, Instr.isLoad]
      · simp [Tree.flatten, Instr.loadTy]
      · intro i hi r hr
        simp at hi
        subst hi
        simp [Instr.res] at hr
        simp [insert_load, emit, ← hr]
      · intro es x hx
        simp only [execL, List.foldl, step, updFn]
        rw [if_neg (by omega)]
      · intro es
        rfl
      · intro es
        rfl
      · intro ha hb es j hj
        simp [Tree.flatten] at hj
        subst hj
        simp [Tree.flatten, Value.eval, execL, step, updFn]
    · refine ⟨.leaf (.normal (s.nextValue + 2)),
        (insert_load array (s.nextValue + 1) ty
          (insert_binary base_index .add s.nextValue (field_constant fi s).2).2).2,
        ?_, rfl, rfl, ?_, ?_, ?_, [.const s.nextValue fi .field,
          .binary (s.nextValue + 1) base_index .add s.nextValue,
          .load (s.nextValue + 2) array (s.nextValue + 1) ty],
        ?_, ?_, ?_, ?_, ?_, ?_, ?_, ?_⟩
      · simp [map_type, load_leaf, make_offset, hfi, field_constant, numeric_constant,
          insert_binary, insert_load, emit, Tree.flatten]
      · simp [insert_load, insert_binary, field_constant, numeric_constant, emit]
        omega
      · simp [insert_load, insert_binary, field_constant, numeric_constant, emit]
      · intro w hw
        simp [Tree.flatten] at hw
        simp [hw, Value.eval, insert_load, insert_binary, field_constant,
          numeric_constant, emit]
      · simp [insert_load, insert_binary, field_constant, numeric_constant, emit]
      · intro i hi
        simp at hi
        rcases hi with hi | hi | hi <;>
          simp [hi, Instr.isConst, Instr.isAddOf, Instr.isLoad]
      · simp [Tree.flatten, Instr.loadTy]
      · intro i hi r hr
        simp [insert_load, insert_binary, field_constant, numeric_constant, emit]
        simp at hi
        rcases hi with hi | hi | hi <;> subst hi <;> simp [Instr.res] at hr <;> omega
      · intro es x hx
        simp only [execL, List.foldl, step, updFn]
        rw [if_neg (by omega), if_neg (by omega), if_neg (by omega)]
      · intro es
        rfl
      · intro es
        rfl
      · intro ha hb es j hj
        simp [Tree.flatten] at hj
        subst hj
        have h1 : base_index ≠ s.nextValue := by omega
        have h2 : array ≠ s.nextValue + 1 := by omega
        have h3 : array ≠ s.nextValue := by omega
        simp [Tree.flatten, Value.eval, execL, step, updFn, denoteOp, h1, h2, h3]
  | .branch ts =>
    obtain ⟨vals, s', heq, hsh, hln, hnv, hcur, hlv, d, htr, hform, hlty, hres, henv,
      hmem, halloc, hsem⟩ := ld_list array base_index ts fi s
    refine ⟨.branch vals, s', ?_, ?_, ?_, hnv, hcur, ?_, d, htr, hform, ?_, hres, henv,
      hmem, halloc, ?_⟩
    · simp [map_type, heq, Tree.flatten]
    · rw [Tree.shape_branch, Tree.shape_branch, hsh]
    · simpa [Tree.flatten] using hln
    · simpa [Tree.flatten] using hlv
    · simpa [Tree.flatten] using hlty
    · intro ha hb es j hj
      simp only [Tree.flatten] at hj ⊢
      exact hsem ha hb es j hj

theorem ld_list (array base_index : Nat) (ts : List (Tree Typ)) (fi : Nat) (s : BState) :
    ∃ vals s',
      map_type_list (load_leaf array base_index) ts (fi, s)
        = (vals, (fi + (Tree.flattenList ts).length, s')) ∧
      vals.map Tree.shape = ts.map Tree.shape ∧
      (Tree.flattenList vals).length = (Tree.flattenList ts).length ∧
      s.nextValue ≤ s'.nextValue ∧
      s'.cur = s.cur ∧
      (∀ w ∈ Tree.flattenList vals, w.eval < s'.nextValue) ∧
      ∃ d, s'.trace = s.trace ++ d ∧
        (∀ i ∈ d, i.isConst = true ∨ i.isAddOf = true ∨ i.isLoad = true) ∧
        d.filterMap Instr.loadTy = Tree.flattenList ts ∧
        resWithin s.nextValue s'.nextValue d ∧
        (∀ es x, x < s.nextValue → (execL es d).env x = es.env x) ∧
        (∀ es, (execL es d).mem = es.mem) ∧
        (∀ es, (execL es d).allocNext = es.allocNext) ∧
        (array < s.nextValue → base_index < s.nextValue →
          ∀ es j, j < (Tree.flattenList ts).length →
            (execL es d).env (((Tree.flattenList vals).getD j (Value.normal 0)).eval)
              = es.mem (es.env array + (es.env base_index + (fi + j)))) := by
  match ts with
  | [] =>
    refine ⟨[], s, by simp [map_type_list, Tree.flattenList], rfl, rfl, le_refl _, rfl,
      ?_, [], by simp, ?_, ?_, resWithin_nil _ _, ?_, ?_, ?_, ?_⟩
    · intro w hw
      simp [Tree.flattenList] at hw
    · intro i hi
      simp at hi
    · simp [Tree.flattenList]
    · intro es x hx
      rfl
    · intro es
      rfl
    · intro es
      rfl
    · intro ha hb es j hj
      simp [Tree.flattenList] at hj
  | t :: ts =>
    obtain ⟨v1, s1, heq1, hsh1, hln1, hnv1, hcur1, hlv1, d1, htr1, hform1, hlty1, hres1,
      henv1, hmem1, halloc1, hsem1⟩ := ld_tree array base_index t fi s
    obtain ⟨vs, s2, heq2, hsh2, hln2, hnv2, hcur2, hlv2, d2, htr2, hform2, hlty2, hres2,
      henv2, hmem2, halloc2, hsem2⟩ :=
        ld_list array base_index ts (fi + t.flatten.length) s1
    have hL : (Tree.flattenList (t :: ts)).length
        = t.flatten.length + (Tree.flattenList ts).length := by
      simp [Tree.flattenList]
    refine ⟨v1 :: vs, s2, ?_, ?_, ?_, le_trans hnv1 hnv2, hcur2.trans hcur1, ?_,
      d1 ++ d2, ?_, ?_, ?_, resWithin_append hres1 hres2 hnv1 hnv2, ?_, ?_, ?_, ?_⟩
    · simp only [map_type_list, heq1, heq2]
      rw [hL]
      ring_nf
    · simp [hsh1, hsh2]
    · simp only [Tree.flattenList, List.length_append, hln1, hln2]
    · intro w hw
      simp only [Tree.flattenList, List.mem_append] at hw
      rcases hw with hw | hw
      · exact lt_of_lt_of_le (hlv1 w hw) hnv2
      · exact hlv2 w hw
    · rw [htr2, htr1, List.append_assoc]
    · intro i hi
      rcases List.mem_append.1 hi with hi | hi
      · exact hform1 i hi
      · exact hform2 i hi
    · simp only [List.filterMap_append, hlty1, hlty2, Tree.flattenList]
    · intro es x hx
      rw [execL_append]
      rw [henv2 _ x (lt_of_lt_of_le hx hnv1), henv1 es x hx]
    · intro es
      rw [execL_append, hmem2, hmem1]
    · intro es
      rw [execL_append, halloc2, halloc1]
    · intro ha hb es j hj
      rw [execL_append]
      have hfl : Tree.flattenList (v1 :: vs) = v1.flatten ++ Tree.flattenList vs := by
        simp [Tree.flattenList]
      by_cases hjl : j < t.flatten.length
      · have hget : (Tree.flattenList (v1 :: vs)).getD j (Value.normal 0)
            = v1.flatten.getD j (Value.normal 0) := by
          rw [hfl, List.getD_append]
          omega
        rw [hget]
        have hid : (v1.flatten.getD j (Value.normal 0)).eval < s1.nextValue := by
          have hmem : v1.flatten.getD j (Value.normal 0) ∈ v1.flatten := by
            rw [List.getD_eq_getElem _ _ (by omega)]
            exact List.getElem_mem _
          exact hlv1 _ hmem
        rw [henv2 _ _ hid]
        exact hsem1 ha hb es j hjl
      · have hget : (Tree.flattenList (v1 :: vs)).getD j (Value.normal 0)
            = (Tree.flattenList vs).getD (j - t.flatten.length) (Value.normal 0) := by
          rw [hfl, List.getD_append_right]
          · rw [hln1]
          · omega
        rw [hget]
        have ha2 : array < s1.nextValue := lt_of_lt_of_le ha hnv1
        have hb2 : base_index < s1.nextValue := lt_of_lt_of_le hb hnv1
        have hj2 : j - t.flatten.length < (Tree.flattenList ts).length := by omega
        have := hsem2 ha2 hb2 (execL es d1) (j - t.flatten.length) hj2
        rw [this, hmem1, henv1 es array ha, henv1 es base_index hb]
        congr 2
        omega

end

/-! ## The store pass of codegen_array -/

mutual

theorem fe_tree (array : Nat) (t : Values) (i : Nat) (s : BState) :
    ∃ s', Tree.for_each (store_leaf array) t (i, s) = (i + t.flatten.length, s') ∧
      s.nextValue ≤ s'.nextValue ∧
      s'.cur = s.cur ∧
      ∃ d, s'.trace = s.trace ++ d ∧
        d.filterMap Instr.allocSize = [] ∧
        d.filterMap Instr.storeVal = t.flatten.map Value.eval ∧
        resWithin s.nextValue s'.nextValue d ∧
        (∀ es x, x < s.nextValue → (execL es d).env x = es.env x) ∧
        (∀ es, (execL es d).allocNext = es.allocNext) ∧
        (array < s.nextValue → (∀ w ∈ t.flatten, w.eval < s.nextValue) →
          ∀ es,
            (∀ p, p < t.flatten.length →
              (execL es d).mem (es.env array + (i + p))
                = es.env ((t.flatten.getD p (Value.normal 0)).eval)) ∧
            (∀ a, (∀ p, p < t.flatten.length → a ≠ es.env array + (i + p)) →
              (execL es d).mem a = es.mem a)) := by
  match t with
  | .leaf v =>
    by_cases hi : i = 0
    · subst hi
      refine ⟨insert_store array v.eval s, ?_, ?_, rfl, [.store array v.eval],
        ?_, ?_, ?_, ?_, ?_, ?_, ?_⟩
      · simp [Tree.for_each, store_leaf, make_offset, Tree.flatten]
      · simp [insert_store, emitNR]
      · simp [insert_store, emitNR]
      · simp [Instr.allocSize]
      · simp [Tree.flatten, Instr.storeVal]
      · intro j hj r hr
        simp at hj
        subst hj
        simp [Instr.res] at hr
      · intro es x hx
        rfl
      · intro es
        rfl
      · intro ha hv es
        constructor
        · intro p hp
          simp [Tree.flatten] at hp
          subst hp
          simp [Tree.flatten, execL, step, updFn]
        · intro a hne
          have hthis := hne 0 (by simp [Tree.flatten])
          simp [execL, step, updFn]
          intro h
          exact absurd h (by omega)
    · refine ⟨insert_store (s.nextValue + 1) v.eval
          (insert_binary array .add s.nextValue (field_constant i s).2).2,
        ?_, ?_, ?_, [.const s.nextValue i .field,
          .binary (s.nextValue + 1) array .add s.nextValue,
          .store (s.nextValue + 1) v.eval],
        ?_, ?_, ?_, ?_, ?_, ?_, ?_⟩
      · simp [Tree.for_each, store_leaf, make_offset, hi, field_constant,
          numeric_constant, insert_binary, insert_store, emit, emitNR, Tree.flatten]
      · simp [insert_store, insert_binary, field_constant, numeric_constant, emit, emitNR]
        omega
      · simp [insert_store, insert_binary, field_constant, numeric_constant, emit, emitNR]
      · simp [insert_store, insert_binary, field_constant, numeric_constant, emit, emitNR]
      · simp [Instr.allocSize]
      · simp [Tree.flatten, Instr.storeVal]
      · intro j hj r hr
        simp [insert_store, insert_binary, field_constant, numeric_constant, emit, emitNR]
        simp at hj
        rcases hj with hj | hj | hj <;> subst hj <;> simp [Instr.res] at hr <;> omega
      · intro es x hx
        simp only [execL, List.foldl, step, updFn]
        rw [if_neg (by omega), if_neg (by omega)]
      · intro es
        rfl
      · intro ha hv es
        have hvv : v.eval < s.nextValue := hv v (by simp [Tree.flatten])
        have h1 : array ≠ s.nextValue := by omega
        have h2 : v.eval ≠ s.nextValue + 1 := by omega
        have h3 : v.eval ≠ s.nextValue := by omega
        constructor
        · intro p hp
          simp [Tree.flatten] at hp
          subst hp
          simp [Tree.flatten, execL, step, updFn, denoteOp, h1, h2, h3]
        · intro a hne
          have hthis := hne 0 (by simp [Tree.flatten])
          simp [execL, step, updFn, denoteOp, h1]
          intro h
          exact absurd h (by omega)
  | .branch ts =>
    obtain ⟨s', heq, hnv, hcur, d, htr, hal, hsv, hres, henv, halloc, hsem⟩ :=
      fe_list array ts i s
    refine ⟨s', ?_, hnv, hcur, d, htr, hal, ?_, hres, henv, halloc, ?_⟩
    · simpa [Tree.for_each, Tree.flatten] using heq
    · simpa [Tree.flatten] using hsv
    · intro ha hv es
      simp only [Tree.flatten] at hv ⊢
      exact hsem ha hv es

theorem fe_list (array : Nat) (ts : List Values) (i : Nat) (s : BState) :
    ∃ s', Tree.for_each_list (store_leaf array) ts (i, s)
        = (i + (Tree.flattenList ts).length, s') ∧
      s.nextValue ≤ s'.nextValue ∧
      s'.cur = s.cur ∧
      ∃ d, s'.trace = s.trace ++ d ∧
        d.filterMap Instr.allocSize = [] ∧
        d.filterMap Instr.storeVal = (Tree.flattenList ts).map Value.eval ∧
        resWithin s.nextValue s'.nextValue d ∧
        (∀ es x, x < s.nextValue → (execL es d).env x = es.env x) ∧
        (∀ es, (execL es d).allocNext = es.allocNext) ∧
        (array < s.nextValue → (∀ w ∈ Tree.flattenList ts, w.eval < s.nextValue) →
          ∀ es,
            (∀ p, p < (Tree.flattenList ts).length →
              (execL es d).mem (es.env array + (i + p))
                = es.env (((Tree.flattenList ts).getD p (Value.normal 0)).eval)) ∧
            (∀ a, (∀ p, p < (Tree.flattenList ts).length → a ≠ es.env array + (i + p)) →
              (execL es d).mem a = es.mem a)) := by
  match ts with
  | [] =>
    refine ⟨s, by simp [Tree.for_each_list, Tree.flattenList], le_refl _, rfl,
      [], by simp, by simp, ?_, resWithin_nil _ _, ?_, ?_, ?_⟩
    · simp [Tree.flattenList]
    · intro es x hx
      rfl
    · intro es
      rfl
    · intro ha hv es
      constructor
      · intro p hp
        simp [Tree.flattenList] at hp
      · intro a hne
        rfl
  | t :: ts =>
    obtain ⟨s1, heq1, hnv1, hcur1, d1, htr1, hal1, hsv1, hres1, henv1, halloc1, hsem1⟩ :=
      fe_tree array t i s
    obtain ⟨s2, heq2, hnv2, hcur2, d2, htr2, hal2, hsv2, hres2, henv2, halloc2, hsem2⟩ :=
      fe_list array ts (i + t.flatten.length) s1
    have hL : (Tree.flattenList (t :: ts)).length
        = t.flatten.length + (Tree.flattenList ts).length := by
      simp [Tree.flattenList]
    have hfl : Tree.flattenList (t :: ts) = t.flatten ++ Tree.flattenList ts := by
      simp [Tree.flattenList]
    refine ⟨s2, ?_, le_trans hnv1 hnv2, hcur2.trans hcur1, d1 ++ d2, ?_, ?_, ?_,
      resWithin_append hres1 hres2 hnv1 hnv2, ?_, ?_, ?_⟩
    · simp only [Tree.for_each_list, heq1, heq2, hL]
      ring_nf
    · rw [htr2, htr1, List.append_assoc]
    · simp only [List.filterMap_append, hal1, hal2, List.append_nil]
    · simp only [List.filterMap_append, hsv1, hsv2, hfl, List.map_append]
    · intro es x hx
      rw [execL_append, henv2 _ x (lt_of_lt_of_le hx hnv1), henv1 es x hx]
    · intro es
      rw [execL_append, halloc2, halloc1]
    · intro ha hv es
      have hv1 : ∀ w ∈ t.flatten, w.eval < s.nextValue := by
        intro w hw
        exact hv w (by rw [hfl]; exact List.mem_append_left _ hw)
      have hv2 : ∀ w ∈ Tree.flattenList ts, w.eval < s1.nextValue := by
        intro w hw
        exact lt_of_lt_of_le (hv w (by rw [hfl]; exact List.mem_append_right _ hw)) hnv1
      have ha2 : array < s1.nextValue := lt_of_lt_of_le ha hnv1
      have henvarr : (execL es d1).env array = es.env array := henv1 es array ha
      have hsem1es := hsem1 ha hv1 es
      have hsem2es := hsem2 ha2 hv2 (execL es d1)
      constructor
      · intro p hp
        rw [execL_append]
        rw [hL] at hp
        by_cases hpl : p < t.flatten.length
        · have hget : (Tree.flattenList (t :: ts)).getD p (Value.normal 0)
              = t.flatten.getD p (Value.normal 0) := by
            rw [hfl, List.getD_append]
            omega
          rw [hget]
          rw [hsem2es.2 _ ?side]
          · exact hsem1es.1 p hpl
          case side =>
            intro q hq
            rw [henvarr]
            omega
        · have hget : (Tree.flattenList (t :: ts)).getD p (Value.normal 0)
              = (Tree.flattenList ts).getD (p - t.flatten.length) (Value.normal 0) := by
            rw [hfl, List.getD_append_right]
            omega
          rw [hget]
          have hp2 : p - t.flatten.length < (Tree.flattenList ts).length := by omega
          have := hsem2es.1 (p - t.flatten.length) hp2
          rw [henvarr] at this
          have harith : es.env array + (i + t.flatten.length + (p - t.flatten.length))
              = es.env array + (i + p) := by omega
          rw [harith] at this
          rw [this]
          have hid : ((Tree.flattenList ts).getD (p - t.flatten.length)
              (Value.normal 0)).eval < s.nextValue := by
            have hmem : (Tree.flattenList ts).getD (p - t.flatten.length)
                (Value.normal 0) ∈ Tree.flattenList ts := by
              rw [List.getD_eq_getElem _ _ (by omega)]
              exact List.getElem_mem _
            exact hv _ (by rw [hfl]; exact List.mem_append_right _ hmem)
          exact henv1 es _ hid
      · intro a hne
        rw [execL_append]
        rw [hsem2es.2 a ?side2]
        · refine hsem1es.2 a ?_
          intro p hp
          refine hne p ?_
          omega
        case side2 =>
          intro q hq
          rw [henvarr]
          have := hne (t.flatten.length + q) (by omega)
          omega

end

/-! ## Translation of pure literal trees -/

mutual

theorem pl_tree (e : Expr) (s : BState) (h : isLitTree e = true) :
    ∃ v s', codegen_expression e s = some (v, s') ∧
      v.flatten.map Value.eval = List.range' s.nextValue (litLeaves e).length ∧
      s'.nextValue = s.nextValue + (litLeaves e).length ∧
      s'.cur = s.cur ∧
      ∃ d, s'.trace = s.trace ++ d ∧
        (∀ i ∈ d, i.isConst = true) ∧
        resWithin s.nextValue s'.nextValue d ∧
        (∀ es x, x < s.nextValue → (execL es d).env x = es.env x) ∧
        (∀ es, (execL es d).mem = es.mem) ∧
        (∀ es, (execL es d).allocNext = es.allocNext) ∧
        (∀ es j, j < (litLeaves e).length →
          (execL es d).env (s.nextValue + j) = (litLeaves e).getD j 0) := by
  match e with
  | .lit (.int val ty) =>
    refine ⟨.leaf (.normal s.nextValue), (numeric_constant val ty s).2,
      ?_, ?_, ?_, rfl, [.const s.nextValue val ty], ?_, ?_, ?_, ?_, ?_, ?_, ?_⟩
    · simp [codegen_expression, codegen_literal, numeric_constant, emit]
    · simp [Tree.flatten, Value.eval, litLeaves, List.range']
    · simp [numeric_constant, emit, litLeaves]
    · simp [numeric_constant, emit]
    · intro i hi
      simp at hi
      simp [hi, Instr.isConst]
    · intro i hi r hr
      simp at hi
      subst hi
      simp [Instr.res] at hr
      simp [numeric_constant, emit, ← hr]
    · intro es x hx
      simp only [execL, List.foldl, step, updFn]
      rw [if_neg (by omega)]
    · intro es
      rfl
    · intro es
      rfl
    · intro es j hj
      simp [litLeaves] at hj
      subst hj
      simp [litLeaves, execL, step, updFn]
  | .tuple fields =>
    have hl : isLitList fields = true := by simpa [isLitTree] using h
    obtain ⟨vs, s', heq, hfl, hln, hnv, hcur, d, htr, hconst, hres, henv, hmem, halloc,
      hsem⟩ := pl_list fields s hl
    refine ⟨.branch vs, s', ?_, ?_, ?_, hcur, d, htr, hconst, hres, henv, hmem,
      halloc, ?_⟩
    · simp [codegen_expression, codegen_tuple, heq]
    · simpa [Tree.flatten, litLeaves] using hfl
    · simpa [litLeaves] using hnv
    · simpa [litLeaves] using hsem
  | .ident n => simp [isLitTree] at h
  | .lit (.bool b) => simp [isLitTree] at h
  | .lit (.str bytes) => simp [isLitTree] at h
  | .lit (.arr c t) => simp [isLitTree] at h
  | .block es0 => simp [isLitTree] at h
  | .unary op r => simp [isLitTree] at h
  | .binary l op r => simp [isLitTree] at h
  | .index c i t => simp [isLitTree] at h
  | .cast l t => simp [isLitTree] at h
  | .forE a b c d => simp [isLitTree] at h
  | .ifE c t a ty => simp [isLitTree] at h
  | .extractTupleField t i => simp [isLitTree] at h
  | .call f args => simp [isLitTree] at h
  | .letE n d => simp [isLitTree] at h
  | .constrainE e0 l => simp [isLitTree] at h
  | .assign l r => simp [isLitTree] at h
  | .semi e0 => simp [isLitTree] at h

theorem pl_list (es0 : List Expr) (s : BState) (h : isLitList es0 = true) :
    ∃ vs s', codegen_list es0 s = some (vs, s') ∧
      (Tree.flattenList vs).map Value.eval
        = List.range' s.nextValue (litLeavesList es0).length ∧
      vs.map (fun v => v.flatten.length)
        = es0.map (fun e => (litLeaves e).length) ∧
      s'.nextValue = s.nextValue + (litLeavesList es0).length ∧
      s'.cur = s.cur ∧
      ∃ d, s'.trace = s.trace ++ d ∧
        (∀ i ∈ d, i.isConst = true) ∧
        resWithin s.nextValue s'.nextValue d ∧
        (∀ es x, x < s.nextValue → (execL es d).env x = es.env x) ∧
        (∀ es, (execL es d).mem = es.mem) ∧
        (∀ es, (execL es d).allocNext = es.allocNext) ∧
        (∀ es j, j < (litLeavesList es0).length →
          (execL es d).env (s.nextValue + j) = (litLeavesList es0).getD j 0) := by
  match es0 with
  | [] =>
    refine ⟨[], s, by simp [codegen_list], by simp [Tree.flattenList, litLeavesList],
      rfl, by simp [litLeavesList], rfl, [], by simp, ?_, resWithin_nil _ _,
      ?_, ?_, ?_, ?_⟩
    · intro i hi
      simp at hi
    · intro es x hx
      rfl
    · intro es
      rfl
    · intro es
      rfl
    · intro es j hj
      simp [litLeavesList] at hj
  | e :: rest =>
    have he : isLitTree e = true := by
      simp [isLitList] at h
      exact h.1
    have hr : isLitList rest = true := by
      simp [isLitList] at h
      exact h.2
    obtain ⟨v1, s1, heq1, hfl1, hnv1, hcur1, d1, htr1, hc1, hres1, henv1, hmem1,
      halloc1, hsem1⟩ := pl_tree e s he
    obtain ⟨vs, s2, heq2, hfl2, hln2, hnv2, hcur2, d2, htr2, hc2, hres2, henv2, hmem2,
      halloc2, hsem2⟩ := pl_list rest s1 hr
    have hL : (litLeavesList (e :: rest)).length
        = (litLeaves e).length + (litLeavesList rest).length := by
      simp [litLeavesList]
    have hjoin : litLeavesList (e :: rest) = litLeaves e ++ litLeavesList rest := by
      simp [litLeavesList]
    have hfllen : v1.flatten.length = (litLeaves e).length := by
      have := congrArg List.length hfl1
      simpa using this
    refine ⟨v1 :: vs, s2, ?_, ?_, ?_, by omega, hcur2.trans hcur1, d1 ++ d2,
      ?_, ?_, ?_, ?_, ?_, ?_, ?_⟩
    · simp only [codegen_list, heq1, heq2]
    · have hr2 : List.range' s1.nextValue (litLeavesList rest).length
          = List.range' (s.nextValue + (litLeaves e).length)
              (litLeavesList rest).length := by rw [hnv1]
      simp only [Tree.flattenList, List.map_append, hfl1, hfl2, hr2, hL]
      rw [range'_split]
    · simp [hfllen, hln2]
    · rw [htr2, htr1, List.append_assoc]
    · intro i hi
      rcases List.mem_append.1 hi with hi | hi
      · exact hc1 i hi
      · exact hc2 i hi
    · refine resWithin_append hres1 ?_ (by omega) (by omega)
      exact hres2
    · intro es x hx
      rw [execL_append, henv2 _ x (by omega), henv1 es x hx]
    · intro es
      rw [execL_append, hmem2, hmem1]
    · intro es
      rw [execL_append, halloc2, halloc1]
    · intro es j hj
      rw [execL_append]
      rw [hL] at hj
      by_cases hjl : j < (litLeaves e).length
      · have hget : (litLeavesList (e :: rest)).getD j 0
            = (litLeaves e).getD j 0 := by
          rw [hjoin, List.getD_append]
          omega
        rw [hget, henv2 _ _ (by omega)]
        exact hsem1 es j hjl
      · have hget : (litLeavesList (e :: rest)).getD j 0
            = (litLeavesList rest).getD (j - (litLeaves e).length) 0 := by
          rw [hjoin, List.getD_append_right]
          omega
        rw [hget]
        have hj2 : j - (litLeaves e).length < (litLeavesList rest).length := by omega
        have := hsem2 (execL es d1) (j - (litLeaves e).length) hj2
        rw [hnv1] at this
        have harith : s.nextValue + (litLeaves e).length + (j - (litLeaves e).length)
            = s.nextValue + j := by omega
        rw [harith] at this
        exact this
end

/-! ## The emission trace is append-only -/

theorem str_elements_trace (bytes : List Nat) (s : BState) :
    ∃ d, (str_elements bytes s).2.trace = s.trace ++ d := by
  induction bytes generalizing s with
  | nil => exact ⟨[], by simp [str_elements]⟩
  | cons b bs ih =>
    obtain ⟨d, hd⟩ := ih (numeric_constant b .field s).2
    refine ⟨.const s.nextValue b .field :: d, ?_⟩
    simp only [str_elements]
    rw [hd]
    simp [numeric_constant, emit]

theorem codegen_array_trace (elements : List Values) (element_type : Tree Typ)
    (s : BState) (v : Values) (s' : BState)
    (h : codegen_array elements element_type s = some (v, s')) :
    ∃ d, s'.trace = s.trace ++ d := by
  rw [codegen_array] at h
  split at h
  · split at h
    rename_i array s1 halloc
    split at h
    rename_i cnt s2 hfe
    simp only [Option.some.injEq, Prod.mk.injEq] at h
    obtain ⟨h1, h2⟩ := h
    subst h2
    have htr1 : s1.trace = s.trace
        ++ [Instr.allocate s.nextValue (element_type.size_of_type * elements.length)] := by
      have := congrArg (fun p => p.2.trace) halloc
      simpa [insert_allocate, emit] using this.symm
    obtain ⟨s2b, heq, hnv, hcur, d, htr, hrest⟩ := fe_list array elements 0 s1
    rw [heq] at hfe
    simp only [Prod.mk.injEq] at hfe
    obtain ⟨hfe1, hfe2⟩ := hfe
    subst hfe2
    refine ⟨[Instr.allocate s.nextValue (element_type.size_of_type * elements.length)]
      ++ d, ?_⟩
    rw [htr, htr1, List.append_assoc]
  · exact absurd h (by simp)

theorem codegen_if_end_trace (tb : Nat) (tv ev : Values) (typ : Tree Typ)
    (s8 : BState) : (codegen_if_end tb tv ev typ s8).2.trace = s8.trace := by
  obtain ⟨res, s10, heq, hsh, hfl, hnv, htr, hcur, hrest⟩ :=
    mtp_tree (insert_block s8).1 typ (insert_block s8).2
  simp only [codegen_if_end, heq, switch_to_block, terminate_with_jmp]
  simpa [insert_block] using htr

set_option maxHeartbeats 1000000 in
mutual

theorem tp_expression (e : Expr) : ∀ (s : BState) (v : Values) (s' : BState),
    codegen_expression e s = some (v, s') → ∃ d, s'.trace = s.trace ++ d := by
  match e with
  | .ident n => intro s v s' h; simp [codegen_expression, codegen_ident] at h
  | .lit l =>
    intro s v s' h
    simp only [codegen_expression] at h
    exact tp_literal l s v s' h
  | .block es0 =>
    intro s v s' h
    simp only [codegen_expression] at h
    exact tp_block es0 s v s' h
  | .unary op r =>
    intro s v s' h
    simp only [codegen_expression] at h
    exact tp_unary op r s v s' h
  | .binary l op r =>
    intro s v s' h
    simp only [codegen_expression] at h
    exact tp_binary l op r s v s' h
  | .index c i ty =>
    intro s v s' h
    simp only [codegen_expression] at h
    exact tp_index c i ty s v s' h
  | .cast l ty =>
    intro s v s' h
    simp only [codegen_expression] at h
    exact tp_cast l ty s v s' h
  | .forE a b c d => intro s v s' h; simp [codegen_expression, codegen_for] at h
  | .ifE c t a ty =>
    intro s v s' h
    simp only [codegen_expression] at h
    exact tp_if c t a ty s v s' h
  | .tuple fields =>
    intro s v s' h
    simp only [codegen_expression] at h
    exact tp_tuple fields s v s' h
  | .extractTupleField t i =>
    intro s v s' h
    simp only [codegen_expression] at h
    exact tp_extract t i s v s' h
  | .call f args => intro s v s' h; simp [codegen_expression, codegen_call] at h
  | .letE n d => intro s v s' h; simp [codegen_expression, codegen_let] at h
  | .constrainE e0 l =>
    intro s v s' h
    simp only [codegen_expression] at h
    exact tp_constrain e0 s v s' h
  | .assign l r => intro s v s' h; simp [codegen_expression, codegen_assign] at h
  | .semi e0 =>
    intro s v s' h
    simp only [codegen_expression] at h
    exact tp_semi e0 s v s' h
termination_by (sizeOf e, 1)

theorem tp_non_tuple (e : Expr) : ∀ (s : BState) (v : Nat) (s' : BState),
    codegen_non_tuple_expression e s = some (v, s') → ∃ d, s'.trace = s.trace ++ d := by
  intro s v s' h
  rw [codegen_non_tuple_expression] at h
  split at h
  · simp at h
  · simp at h
  · rename_i value s1 heq
    simp only [Option.some.injEq, Prod.mk.injEq] at h
    obtain ⟨h1, h2⟩ := h
    subst h2
    exact tp_expression e s _ _ heq
termination_by (sizeOf e, 2)

theorem tp_literal (l : Lit) : ∀ (s : BState) (v : Values) (s' : BState),
    codegen_literal l s = some (v, s') → ∃ d, s'.trace = s.trace ++ d := by
  match l with
  | .int value ty =>
    intro s v s' h
    simp [codegen_literal] at h
    obtain ⟨h1, h2⟩ := h
    subst h2
    exact ⟨[.const s.nextValue value ty], by simp [numeric_constant, emit]⟩
  | .bool value =>
    intro s v s' h
    simp [codegen_literal] at h
    obtain ⟨h1, h2⟩ := h
    subst h2
    exact ⟨[.const s.nextValue (if value then 1 else 0) .bool],
      by simp [numeric_constant, emit]⟩
  | .str bytes =>
    intro s v s' h
    rw [codegen_literal] at h
    split at h
    rename_i elements s1 hse
    have hs1 : (str_elements bytes s).2 = s1 := by rw [hse]
    obtain ⟨d1, hd1⟩ := str_elements_trace bytes s
    rw [hs1] at hd1
    obtain ⟨d2, hd2⟩ := codegen_array_trace _ _ _ _ _ h
    exact ⟨d1 ++ d2, by rw [hd2, hd1, List.append_assoc]⟩
  | .arr contents element_type =>
    intro s v s' h
    rw [codegen_literal] at h
    split at h
    · simp at h
    · rename_i elements s1 heq
      obtain ⟨d1, hd1⟩ := tp_list contents s elements s1 heq
      obtain ⟨d2, hd2⟩ := codegen_array_trace _ _ _ _ _ h
      exact ⟨d1 ++ d2, by rw [hd2, hd1, List.append_assoc]⟩
termination_by (sizeOf l, 3)

theorem tp_list (es0 : List Expr) : ∀ (s : BState) (vs : List Values) (s' : BState),
    codegen_list es0 s = some (vs, s') → ∃ d, s'.trace = s.trace ++ d := by
  match es0 with
  | [] =>
    intro s vs s' h
    simp [codegen_list] at h
    obtain ⟨h1, h2⟩ := h
    subst h2
    exact ⟨[], by simp⟩
  | e :: rest =>
    intro s vs s' h
    rw [codegen_list] at h
    split at h
    · simp at h
    · rename_i v1 s1 heq
      split at h
      · simp at h
      · rename_i vrest s2 heq2
        simp only [Option.some.injEq, Prod.mk.injEq] at h
        obtain ⟨h1, h2⟩ := h
        subst h2
        obtain ⟨d1, hd1⟩ := tp_expression e s v1 s1 heq
        obtain ⟨d2, hd2⟩ := tp_list rest s1 vrest s2 heq2
        exact ⟨d1 ++ d2, by rw [hd2, hd1, List.append_assoc]⟩
termination_by (sizeOf es0, 1)

theorem tp_block_loop (res : Values) (es0 : List Expr) :
    ∀ (s : BState) (v : Values) (s' : BState),
    codegen_block_loop res es0 s = some (v, s') → ∃ d, s'.trace = s.trace ++ d := by
  match es0 with
  | [] =>
    intro s v s' h
    simp [codegen_block_loop] at h
    obtain ⟨h1, h2⟩ := h
    subst h2
    exact ⟨[], by simp⟩
  | e :: rest =>
    intro s v s' h
    rw [codegen_block_loop] at h
    split at h
    · simp at h
    · rename_i v1 s1 heq
      obtain ⟨d1, hd1⟩ := tp_expression e s v1 s1 heq
      obtain ⟨d2, hd2⟩ := tp_block_loop v1 rest s1 v s' h
      exact ⟨d1 ++ d2, by rw [hd2, hd1, List.append_assoc]⟩
termination_by (sizeOf es0, 2)

theorem tp_block (es0 : List Expr) : ∀ (s : BState) (v : Values) (s' : BState),
    codegen_block es0 s = some (v, s') → ∃ d, s'.trace = s.trace ++ d := by
  intro s v s' h
  rw [codegen_block] at h
  exact tp_block_loop unit_value es0 s v s' h
termination_by (sizeOf es0, 3)

theorem tp_unary (op : UnaryOp) (rhsE : Expr) :
    ∀ (s : BState) (v : Values) (s' : BState),
    codegen_unary op rhsE s = some (v, s') → ∃ d, s'.trace = s.trace ++ d := by
  intro s v s' h
  rw [codegen_unary] at h
  split at h
  · simp at h
  · rename_i rhs s1 heq
    obtain ⟨d1, hd1⟩ := tp_non_tuple rhsE s rhs s1 heq
    split at h
    · simp only [Option.some.injEq, Prod.mk.injEq] at h
      obtain ⟨h1, h2⟩ := h
      subst h2
      exact ⟨d1 ++ [.notI s1.nextValue rhs], by simp [insert_not, emit, hd1]⟩
    · simp only [Option.some.injEq, Prod.mk.injEq] at h
      obtain ⟨h1, h2⟩ := h
      subst h2
      refine ⟨d1 ++ [.const s1.nextValue 0 (type_of_value rhs s1),
        .binary (s1.nextValue + 1) s1.nextValue .sub rhs], ?_⟩
      simp [insert_binary, numeric_constant, emit, hd1]
termination_by (sizeOf rhsE, 3)

theorem tp_binary (lhsE : Expr) (op : BinOp) (rhsE : Expr) :
    ∀ (s : BState) (v : Values) (s' : BState),
    codegen_binary lhsE op rhsE s = some (v, s') → ∃ d, s'.trace = s.trace ++ d := by
  intro s v s' h
  rw [codegen_binary] at h
  split at h
  · simp at h
  · rename_i lhs s1 heq
    split at h
    · simp at h
    · rename_i rhs s2 heq2
      simp only [Option.some.injEq, Prod.mk.injEq] at h
      obtain ⟨h1, h2⟩ := h
      subst h2
      obtain ⟨d1, hd1⟩ := tp_non_tuple lhsE s lhs s1 heq
      obtain ⟨d2, hd2⟩ := tp_non_tuple rhsE s1 rhs s2 heq2
      refine ⟨d1 ++ d2 ++ [.binary s2.nextValue lhs op rhs], ?_⟩
      simp [insert_binary, emit, hd2, hd1]
termination_by (sizeOf (Expr.binary lhsE op rhsE), 0)

theorem tp_index (collection idx : Expr) (element_type : Tree Typ) :
    ∀ (s : BState) (v : Values) (s' : BState),
    codegen_index collection idx element_type s = some (v, s') →
    ∃ d, s'.trace = s.trace ++ d := by
  intro s v s' h
  rw [codegen_index] at h
  split at h
  · simp at h
  · rename_i array s1 heq
    split at h
    · simp at h
    · rename_i base_offset s2 heq2
      split at h
      rename_i ts s3 hts
      split at h
      rename_i base_index s4 hbi
      split at h
      rename_i vals p5 cnt s5 hmt
      simp only [Option.some.injEq, Prod.mk.injEq] at h
      obtain ⟨h1, h2⟩ := h
      subst h2
      obtain ⟨d1, hd1⟩ := tp_non_tuple collection s array s1 heq
      obtain ⟨d2, hd2⟩ := tp_non_tuple idx s1 base_offset s2 heq2
      have htr3 : s3.trace = s2.trace
          ++ [Instr.const s2.nextValue element_type.size_of_type .field] := by
        have := congrArg (fun p => p.2.trace) hts
        simpa [field_constant, numeric_constant, emit] using this.symm
      have htr4 : s4.trace = s3.trace
          ++ [Instr.binary s3.nextValue base_offset .mul ts] := by
        have := congrArg (fun p => p.2.trace) hbi
        simpa [insert_binary, emit] using this.symm
      obtain ⟨vals0, s50, heq50, hsh, hln, hnv, hcur, hlv, d5, htr5, hrest5⟩ :=
        ld_tree array base_index element_type 0 s4
      rw [heq50] at hmt
      simp only [Prod.mk.injEq] at hmt
      obtain ⟨hv0, hcnt, hs5⟩ := hmt
      subst hs5
      refine ⟨d1 ++ (d2 ++ ([Instr.const s2.nextValue element_type.size_of_type .field]
        ++ ([Instr.binary s3.nextValue base_offset .mul ts] ++ d5))), ?_⟩
      rw [htr5, htr4, htr3, hd2, hd1]
      simp [List.append_assoc]
termination_by (sizeOf (Expr.index collection idx element_type), 0)

theorem tp_cast (lhsE : Expr) (ty : Typ) :
    ∀ (s : BState) (v : Values) (s' : BState),
    codegen_cast lhsE ty s = some (v, s') → ∃ d, s'.trace = s.trace ++ d := by
  intro s v s' h
  rw [codegen_cast] at h
  split at h
  · simp at h
  · rename_i lhs s1 heq
    simp only [Option.some.injEq, Prod.mk.injEq] at h
    obtain ⟨h1, h2⟩ := h
    subst h2
    obtain ⟨d1, hd1⟩ := tp_non_tuple lhsE s lhs s1 heq
    exact ⟨d1 ++ [.cast s1.nextValue lhs ty], by simp [insert_cast, emit, hd1]⟩
termination_by (sizeOf lhsE, 3)

theorem tp_if (cond cons : Expr) (alt : Option Expr) (typ : Tree Typ) :
    ∀ (s : BState) (v : Values) (s' : BState),
    codegen_if cond cons alt typ s = some (v, s') → ∃ d, s'.trace = s.trace ++ d := by
  intro s v s' h
  rw [codegen_if] at h
  cases heq : codegen_non_tuple_expression cond s with
  | none =>
    simp only [heq, obind_none] at h
    exact Option.noConfusion h
  | some cs =>
    obtain ⟨condition, s1⟩ := cs
    simp only [heq, obind_some] at h
    cases heq2 : codegen_expression cons (switch_to_block (insert_block s1).1
        (terminate_with_jmpif condition (insert_block s1).1
          (insert_block (insert_block s1).2).1
          (insert_block (insert_block s1).2).2)) with
    | none =>
      simp only [heq2, obind_none] at h
      exact Option.noConfusion h
    | some ts =>
      obtain ⟨then_value, s6⟩ := ts
      simp only [heq2, obind_some] at h
      obtain ⟨d1, hd1⟩ := tp_non_tuple cond s condition s1 heq
      obtain ⟨d2, hd2⟩ := tp_expression cons _ then_value s6 heq2
      have hd2s : s6.trace = s.trace ++ (d1 ++ d2) := by
        rw [← List.append_assoc, ← hd1]
        simpa [switch_to_block, terminate_with_jmpif, insert_block] using hd2
      cases alt with
      | none =>
        simp only [Option.some.injEq, Prod.mk.injEq] at h
        obtain ⟨h1, h2⟩ := h
        subst h2
        exact ⟨d1 ++ d2, by simpa [switch_to_block, terminate_with_jmp] using hd2s⟩
      | some alternative =>
        simp only [] at h
        cases heq3 : codegen_expression alternative
            (switch_to_block (insert_block (insert_block s1).2).1 s6) with
        | none =>
          simp only [heq3, obind_none] at h
          exact Option.noConfusion h
        | some es =>
          obtain ⟨else_value, s8⟩ := es
          simp only [heq3, obind_some, Option.some.injEq] at h
          obtain ⟨d3, hd3⟩ := tp_expression alternative _ else_value s8 heq3
          have hd3s : s8.trace = s.trace ++ (d1 ++ d2 ++ d3) := by
            calc s8.trace = s6.trace ++ d3 := by
                  simpa [switch_to_block] using hd3
              _ = (s.trace ++ (d1 ++ d2)) ++ d3 := by rw [hd2s]
              _ = s.trace ++ (d1 ++ d2 ++ d3) := by rw [List.append_assoc]
          refine ⟨d1 ++ d2 ++ d3, ?_⟩
          have hs2 : (codegen_if_end (insert_block s1).1 then_value else_value
              typ s8).2 = s' := by rw [h]
          rw [← hs2, codegen_if_end_trace]
          exact hd3s
termination_by (sizeOf (Expr.ifE cond cons alt typ), 0)

theorem tp_tuple (fields : List Expr) :
    ∀ (s : BState) (v : Values) (s' : BState),
    codegen_tuple fields s = some (v, s') → ∃ d, s'.trace = s.trace ++ d := by
  intro s v s' h
  rw [codegen_tuple] at h
  split at h
  · simp at h
  · rename_i vs s1 heq
    simp only [Option.some.injEq, Prod.mk.injEq] at h
    obtain ⟨h1, h2⟩ := h
    subst h2
    exact tp_list fields s vs _ heq
termination_by (sizeOf fields, 3)

theorem tp_extract (tupleE : Expr) (idx : Nat) :
    ∀ (s : BState) (v : Values) (s' : BState),
    codegen_extract_tuple_field tupleE idx s = some (v, s') →
    ∃ d, s'.trace = s.trace ++ d := by
  intro s v s' h
  rw [codegen_extract_tuple_field] at h
  split at h
  · simp at h
  · rename_i trees s1 heq
    split at h
    · simp only [Option.some.injEq, Prod.mk.injEq] at h
      obtain ⟨h1, h2⟩ := h
      subst h2
      exact tp_expression tupleE s _ _ heq
    · simp at h
  · simp at h
termination_by (sizeOf tupleE, 3)

theorem tp_constrain (e : Expr) :
    ∀ (s : BState) (v : Values) (s' : BState),
    codegen_constrain e s = some (v, s') → ∃ d, s'.trace = s.trace ++ d := by
  intro s v s' h
  rw [codegen_constrain] at h
  split at h
  · simp at h
  · rename_i boolean s1 heq
    simp only [Option.some.injEq, Prod.mk.injEq] at h
    obtain ⟨h1, h2⟩ := h
    subst h2
    obtain ⟨d1, hd1⟩ := tp_non_tuple e s boolean s1 heq
    exact ⟨d1 ++ [.constrain boolean], by simp [insert_constrain, emitNR, hd1]⟩
termination_by (sizeOf e, 3)

theorem tp_semi (e : Expr) :
    ∀ (s : BState) (v : Values) (s' : BState),
    codegen_semi e s = some (v, s') → ∃ d, s'.trace = s.trace ++ d := by
  intro s v s' h
  rw [codegen_semi] at h
  split at h
  · simp at h
  · rename_i vv s1 heq
    simp only [Option.some.injEq, Prod.mk.injEq] at h
    obtain ⟨h1, h2⟩ := h
    subst h2
    exact tp_expression e s vv _ heq
termination_by (sizeOf e, 3)

end

/-! ## Claim theorems -/

/-- C10: extracting tuple field i from an expression whose translation is a
branch of N subtrees returns the subtree at index i when i < N and aborts
when i ≥ N (Vec::remove panics on an out-of-range index). -/
theorem extract_tuple_field_spec (e : Expr) (idx : Nat) (s s1 : BState)
    (ts : List Values) (h : codegen_expression e s = some (.branch ts, s1)) :
    codegen_extract_tuple_field e idx s
      = if hlt : idx < ts.length then some (ts.get ⟨idx, hlt⟩, s1) else none := by
  rw [codegen_extract_tuple_field, h]

theorem extract_tuple_field_spec_witness :
    codegen_extract_tuple_field
        (.tuple [.lit (.int 1 .field), .lit (.int 2 .field)]) 0 initState
      = some (.leaf (.normal 0),
        { blocks := [Block.mk [] [.const 0 1 .field, .const 1 2 .field] none],
          cur := 0, nextValue := 2, trace := [.const 0 1 .field, .const 1 2 .field],
          vtys := [(1, Typ.field), (0, Typ.field)] }) ∧
    codegen_extract_tuple_field
        (.tuple [.lit (.int 1 .field), .lit (.int 2 .field)]) 5 initState = none := by
  have h : codegen_expression (.tuple [.lit (.int 1 .field), .lit (.int 2 .field)])
      initState = some (.branch [.leaf (.normal 0), .leaf (.normal 1)],
      { blocks := [Block.mk [] [.const 0 1 .field, .const 1 2 .field] none],
        cur := 0, nextValue := 2, trace := [.const 0 1 .field, .const 1 2 .field],
        vtys := [(1, Typ.field), (0, Typ.field)] }) := by
    simp [codegen_expression, codegen_tuple, codegen_list, codegen_literal,
      numeric_constant, emit, initState, modifyAt]
  constructor
  · rw [extract_tuple_field_spec _ 0 _ _ _ h]
    simp
  · rw [extract_tuple_field_spec _ 5 _ _ _ h]
    simp

/-- C9: the three fatal-internal conditions abort translation with no
result: extracting a tuple field from a single-leaf (non-tuple) value,
unwrapping a tuple-shaped value where a single scalar is required, and an
array allocation whose slot count does not fit a u32. -/
theorem fatal_internal_aborts :
    (∀ (e : Expr) (i : Nat) (s s1 : BState) (v : Value),
       codegen_expression e s = some (.leaf v, s1) →
       codegen_extract_tuple_field e i s = none) ∧
    (∀ (e : Expr) (s s1 : BState) (ts : List Values),
       codegen_expression e s = some (.branch ts, s1) →
       codegen_non_tuple_expression e s = none) ∧
    (∀ (elements : List Values) (element_type : Tree Typ) (s : BState),
       4294967296 ≤ element_type.size_of_type * elements.length →
       codegen_array elements element_type s = none) := by
  refine ⟨?_, ?_, ?_⟩
  · intro e i s s1 v h
    rw [codegen_extract_tuple_field, h]
  · intro e s s1 ts h
    rw [codegen_non_tuple_expression, h]
  · intro elements element_type s hsz
    rw [codegen_array]
    rw [if_neg (by omega)]

theorem fatal_internal_aborts_witness :
    codegen_extract_tuple_field (.lit (.int 1 .field)) 0 initState = none ∧
    codegen_non_tuple_expression (.tuple []) initState = none ∧
    codegen_array (List.replicate 4294967296 unit_value) (.leaf .field)
      initState = none := by
  refine ⟨fatal_internal_aborts.1 (.lit (.int 1 .field)) 0 initState
      { blocks := [{ params := [], instrs := [.const 0 1 .field], term := none }],
        cur := 0, nextValue := 1, trace := [.const 0 1 .field],
        vtys := [(0, Typ.field)] } (.normal 0) ?_,
    fatal_internal_aborts.2.1 (.tuple []) initState initState [] ?_,
    fatal_internal_aborts.2.2 _ _ _ ?_⟩
  · simp [codegen_expression, codegen_literal, numeric_constant, emit, initState, modifyAt]
  · simp [codegen_expression, codegen_tuple, codegen_list]
  · have hlen : (List.replicate 4294967296 unit_value).length = 4294967296 := by
      simp only [List.length_replicate]
    have hone : Tree.size_of_type (Tree.leaf Typ.field) = 1 := by
      simp only [Tree.size_of_type, Tree.flatten, List.length_cons, List.length_nil]
    rw [hlen, hone]

/-- C5 (failing input for the totality claim): the dispatcher aborts on
the five expression kinds whose handlers are unimplemented stubs in the
source — for, ident, call, let and assign — so it is not total over all
sixteen kinds of the data model. -/
theorem dispatcher_stub_aborts :
    codegen_expression (.forE "i" (.lit (.int 0 .field)) (.lit (.int 10 .field))
      (.block [])) initState = none ∧
    codegen_expression (.ident "x") initState = none ∧
    codegen_expression (.call 0 []) initState = none ∧
    codegen_expression (.letE "x" (.lit (.int 0 .field))) initState = none ∧
    codegen_expression (.assign "x" (.lit (.int 0 .field))) initState = none := by
  refine ⟨?_, ?_, ?_, ?_, ?_⟩ <;>
    simp [codegen_expression, codegen_for, codegen_ident, codegen_call,
      codegen_let, codegen_assign]

/-- C6: in a binary expression the left operand is translated first, then
the right operand, then the combining instruction: the final trace is the
initial trace followed by the left operand's instructions, then the right
operand's instructions, then the single binary instruction. -/
theorem codegen_binary_left_before_right (lhsE : Expr) (op : BinOp) (rhsE : Expr)
    (s0 s1 s2 : BState) (l r : Nat)
    (hl : codegen_non_tuple_expression lhsE s0 = some (l, s1))
    (hr : codegen_non_tuple_expression rhsE s1 = some (r, s2)) :
    ∃ dl dr, s1.trace = s0.trace ++ dl ∧ s2.trace = s1.trace ++ dr ∧
      codegen_binary lhsE op rhsE s0
        = some (.leaf (.normal s2.nextValue), (insert_binary l op r s2).2) ∧
      (insert_binary l op r s2).2.trace
        = s0.trace ++ (dl ++ (dr ++ [Instr.binary s2.nextValue l op r])) := by
  obtain ⟨dl, hdl⟩ := tp_non_tuple lhsE s0 l s1 hl
  obtain ⟨dr, hdr⟩ := tp_non_tuple rhsE s1 r s2 hr
  refine ⟨dl, dr, hdl, hdr, ?_, ?_⟩
  · simp only [codegen_binary, hl, hr]
    rfl
  · simp [insert_binary, emit, hdr, hdl]

theorem codegen_binary_left_before_right_witness :
    ∃ dl dr,
      (BState.mk [Block.mk [] [Instr.const 0 1 Typ.field] none] 0 1
          [Instr.const 0 1 Typ.field] [(0, Typ.field)]).trace
          = (initState.trace) ++ dl ∧
      (BState.mk [Block.mk []
            [Instr.const 0 1 Typ.field, Instr.const 1 2 Typ.field] none] 0 2
          [Instr.const 0 1 Typ.field, Instr.const 1 2 Typ.field]
          [(1, Typ.field), (0, Typ.field)]).trace
          = (BState.mk [Block.mk [] [Instr.const 0 1 Typ.field] none] 0 1
              [Instr.const 0 1 Typ.field] [(0, Typ.field)]).trace ++ dr ∧
      codegen_binary (.lit (.int 1 .field)) .add (.lit (.int 2 .field)) initState
        = some (.leaf (.normal 2), (insert_binary 0 .add 1
            (BState.mk [Block.mk []
                [Instr.const 0 1 Typ.field, Instr.const 1 2 Typ.field] none] 0 2
              [Instr.const 0 1 Typ.field, Instr.const 1 2 Typ.field]
              [(1, Typ.field), (0, Typ.field)])).2) ∧
      (insert_binary 0 .add 1
          (BState.mk [Block.mk []
              [Instr.const 0 1 Typ.field, Instr.const 1 2 Typ.field] none] 0 2
            [Instr.const 0 1 Typ.field, Instr.const 1 2 Typ.field]
            [(1, Typ.field), (0, Typ.field)])).2.trace
        = initState.trace
            ++ (dl ++ (dr ++ [Instr.binary 2 0 BinOp.add 1])) := by
  exact codegen_binary_left_before_right (.lit (.int 1 .field)) .add
    (.lit (.int 2 .field)) initState _ _ 0 1
    (by simp [codegen_non_tuple_expression, codegen_expression, codegen_literal,
      numeric_constant, emit, initState, modifyAt, Value.eval])
    (by simp [codegen_non_tuple_expression, codegen_expression, codegen_literal,
      numeric_constant, emit, initState, modifyAt, Value.eval])

/-- C2: an array literal with N elements of K-leaf type emits exactly one
allocate instruction of N×K slots first, then stores the elements' leaves
in source order depth-first; executing the emitted instructions writes the
leaf (e, j) at offset e×K + j from the allocated base address, and the
returned value tree is the single leaf holding the base address, never a
branch. -/
theorem codegen_array_spec (elements : List Values) (element_type : Tree Typ)
    (s : BState)
    (hsz : element_type.size_of_type * elements.length < 4294967296)
    (hK : ∀ t ∈ elements, t.flatten.length = element_type.size_of_type)
    (hids : ∀ w ∈ Tree.flattenList elements, w.eval < s.nextValue) :
    ∃ s', codegen_array elements element_type s
        = some (.leaf (.normal s.nextValue), s') ∧
      ∃ d, s'.trace = s.trace
          ++ (Instr.allocate s.nextValue
              (element_type.size_of_type * elements.length) :: d) ∧
        d.filterMap Instr.allocSize = [] ∧
        d.filterMap Instr.storeVal = (Tree.flattenList elements).map Value.eval ∧
        (∀ es : EState, ∀ e j, e < elements.length →
          j < element_type.size_of_type →
          (execL es (Instr.allocate s.nextValue
              (element_type.size_of_type * elements.length) :: d)).mem
              (es.allocNext + (e * element_type.size_of_type + j))
            = es.env (((elements.getD e unit_value).flatten.getD j
                (Value.normal 0)).eval)) := by
  obtain ⟨s2, heq, hnv, hcur, d, htr, hal, hsv, hres, henv, halloc, hsem⟩ :=
    fe_list s.nextValue elements 0
      (insert_allocate (element_type.size_of_type * elements.length) s).2
  have hu : ∀ l ∈ List.map Tree.flatten elements,
      l.length = element_type.size_of_type := by
    intro l hl
    obtain ⟨t, ht, rfl⟩ := List.mem_map.1 hl
    exact hK t ht
  have htotal : (Tree.flattenList elements).length
      = elements.length * element_type.size_of_type := by
    rw [Tree.flattenList_eq, joinAll_length _ _ hu, List.length_map]
  refine ⟨s2, ?_, d, ?_, hal, hsv, ?_⟩
  · rw [codegen_array, if_pos hsz]
    simp only [insert_allocate, emit] at heq ⊢
    rw [heq]
  · rw [htr]
    simp [insert_allocate, emit]
  · intro es e j he hj
    rw [execL_cons]
    have harr : s.nextValue
        < (insert_allocate (element_type.size_of_type * elements.length) s).2.nextValue := by
      simp [insert_allocate, emit]
    have hidsw : ∀ w ∈ Tree.flattenList elements, w.eval
        < (insert_allocate (element_type.size_of_type * elements.length) s).2.nextValue := by
      intro w hw
      have := hids w hw
      simp [insert_allocate, emit]
      omega
    set es1 := step es (Instr.allocate s.nextValue
      (element_type.size_of_type * elements.length)) with hes1
    have hbase : es1.env s.nextValue = es.allocNext := by
      rw [hes1]
      simp [step, updFn]
    obtain ⟨hmem, hother⟩ := hsem harr hidsw es1
    have hp : e * element_type.size_of_type + j < (Tree.flattenList elements).length := by
      rw [htotal]
      have h1 : e + 1 ≤ elements.length := he
      calc e * element_type.size_of_type + j
          < e * element_type.size_of_type + element_type.size_of_type := by omega
        _ = (e + 1) * element_type.size_of_type := by ring
        _ ≤ elements.length * element_type.size_of_type :=
            Nat.mul_le_mul_right _ h1
    have hstep := hmem (e * element_type.size_of_type + j) hp
    rw [hbase] at hstep
    rw [show (0 : Nat) + (e * element_type.size_of_type + j)
        = e * element_type.size_of_type + j from by omega] at hstep
    rw [hstep]
    have hget : (Tree.flattenList elements).getD
        (e * element_type.size_of_type + j) (Value.normal 0)
        = (elements.getD e unit_value).flatten.getD j (Value.normal 0) := by
      rw [Tree.flattenList_eq]
      rw [joinAll_getD_uniform (elements.map Tree.flatten)
        element_type.size_of_type e j (Value.normal 0)
        (by
          intro l hl
          obtain ⟨t, ht, rfl⟩ := List.mem_map.1 hl
          exact hK t ht)
        (by simpa using he) hj]
      congr 1
      rw [List.getD_eq_getElem _ _ (by simpa using he), List.getElem_map,
        List.getD_eq_getElem _ _ he]
    rw [hget]
    have hlid : ((elements.getD e unit_value).flatten.getD j (Value.normal 0)).eval
        < s.nextValue := by
      refine hids _ ?_
      have hjb : j < (elements.getD e unit_value).flatten.length := by
        rw [hK _ (by
          rw [List.getD_eq_getElem _ _ he]
          exact List.getElem_mem _)]
        exact hj
      have hmemj : (elements.getD e unit_value).flatten.getD j (Value.normal 0)
          ∈ (elements.getD e unit_value).flatten := by
        rw [List.getD_eq_getElem _ _ hjb]
        exact List.getElem_mem _
      rw [Tree.flattenList_eq]
      have : (elements.getD e unit_value).flatten ∈ elements.map Tree.flatten := by
        refine List.mem_map.2 ⟨elements.getD e unit_value, ?_, rfl⟩
        rw [List.getD_eq_getElem _ _ he]
        exact List.getElem_mem _
      clear hmem hother hstep
      revert hmemj this
      generalize (elements.getD e unit_value).flatten = fl
      generalize elements.map Tree.flatten = L
      intro hLmem hflmem
      induction L with
      | nil => simp at hflmem
      | cons x xs ih =>
        simp only [joinAll, List.mem_append, List.mem_cons] at hflmem ⊢
        rcases hflmem with h1 | h1
        · subst h1
          exact Or.inl hLmem
        · exact Or.inr (ih h1)
    rw [hes1]
    rw [step_env_ne]
    intro rr hrr
    simp [Instr.res] at hrr
    omega

theorem codegen_array_spec_witness :
    ∃ s', codegen_array [.leaf (.normal 0), .leaf (.normal 1), .leaf (.normal 2)]
        (.leaf .field)
        (BState.mk
          [Block.mk [] [Instr.const 0 1 Typ.field, Instr.const 1 2 Typ.field,
              Instr.const 2 3 Typ.field] none]
          0 3
          [Instr.const 0 1 Typ.field, Instr.const 1 2 Typ.field,
            Instr.const 2 3 Typ.field]
          [(2, Typ.field), (1, Typ.field), (0, Typ.field)])
        = some (.leaf (.normal 3), s') ∧
      ∃ d, s'.trace = [Instr.const 0 1 Typ.field, Instr.const 1 2 Typ.field,
            Instr.const 2 3 Typ.field]
          ++ (Instr.allocate 3 (Tree.size_of_type (Tree.leaf Typ.field) * 3) :: d) ∧
        d.filterMap Instr.allocSize = [] ∧
        d.filterMap Instr.storeVal = (Tree.flattenList
          [Tree.leaf (Value.normal 0), .leaf (.normal 1), .leaf (.normal 2)]).map
            Value.eval ∧
        (∀ es : EState, ∀ e j, e < 3 → j < Tree.size_of_type (Tree.leaf Typ.field) →
          (execL es (Instr.allocate 3 (Tree.size_of_type (Tree.leaf Typ.field) * 3)
              :: d)).mem
              (es.allocNext + (e * Tree.size_of_type (Tree.leaf Typ.field) + j))
            = es.env ((([Tree.leaf (Value.normal 0), .leaf (.normal 1),
                .leaf (.normal 2)].getD e unit_value).flatten.getD j
                (Value.normal 0)).eval)) := by
  exact codegen_array_spec
    [.leaf (.normal 0), .leaf (.normal 1), .leaf (.normal 2)] (.leaf .field) _
    (by simp [Tree.size_of_type, Tree.flatten])
    (by
      intro t ht
      simp at ht
      rcases ht with h | h | h <;> subst h <;> simp [Tree.flatten, Tree.size_of_type])
    (by
      intro w hw
      simp [Tree.flattenList, Tree.flatten] at hw
      rcases hw with h | h | h <;> subst h <;> simp [Value.eval])

/-- C3: indexing over a K-leaf element type computes the base offset as
index × K with a single multiply instruction, then emits only constant,
add and load instructions (in particular no bounds check and no further
multiply): one load per leaf position in depth-first order, tagged with
that leaf's scalar type; executing them yields, for leaf j, the memory
word at base + index×K + j, and the result tree has the element type's
branching shape. -/
theorem codegen_index_spec (collection idx : Expr) (element_type : Tree Typ)
    (s0 s1 s2 : BState) (array base_offset : Nat)
    (hcol : codegen_non_tuple_expression collection s0 = some (array, s1))
    (hidx : codegen_non_tuple_expression idx s1 = some (base_offset, s2))
    (harr : array < s2.nextValue) (hoff : base_offset < s2.nextValue) :
    ∃ vals s', codegen_index collection idx element_type s0 = some (vals, s') ∧
      Tree.shape vals = Tree.shape element_type ∧
      ∃ d, s'.trace = s2.trace
          ++ (Instr.const s2.nextValue element_type.size_of_type .field
             :: Instr.binary (s2.nextValue + 1) base_offset .mul s2.nextValue :: d) ∧
        (∀ i ∈ d, i.isConst = true ∨ i.isAddOf = true ∨ i.isLoad = true) ∧
        d.filterMap Instr.loadTy = element_type.flatten ∧
        (∀ es : EState, ∀ j, j < element_type.size_of_type →
          (execL es (Instr.const s2.nextValue element_type.size_of_type .field
              :: Instr.binary (s2.nextValue + 1) base_offset .mul s2.nextValue
              :: d)).env ((vals.flatten.getD j (Value.normal 0)).eval)
            = es.mem (es.env array
                + (es.env base_offset * element_type.size_of_type + j))) := by
  obtain ⟨vals, s5, heq5, hsh, hln, hnv, hcur, hlv, d5, htr5, hform, hlty, hres,
    henv, hmem, halloc, hsem⟩ :=
    ld_tree array (insert_binary base_offset .mul
        (field_constant element_type.size_of_type s2).1
        (field_constant element_type.size_of_type s2).2).1 element_type 0
      (insert_binary base_offset .mul
        (field_constant element_type.size_of_type s2).1
        (field_constant element_type.size_of_type s2).2).2
  have hbi1 : (insert_binary base_offset .mul
      (field_constant element_type.size_of_type s2).1
      (field_constant element_type.size_of_type s2).2).1 = s2.nextValue + 1 := by
    simp [insert_binary, field_constant, numeric_constant, emit]
  have hbinv : (insert_binary base_offset .mul
      (field_constant element_type.size_of_type s2).1
      (field_constant element_type.size_of_type s2).2).2.nextValue
      = s2.nextValue + 2 := by
    simp [insert_binary, field_constant, numeric_constant, emit]
  refine ⟨vals, s5, ?_, hsh, d5, ?_, hform, hlty, ?_⟩
  · simp only [codegen_index, hcol, hidx]
    simp only [field_constant, numeric_constant, insert_binary, emit,
      type_of_value] at heq5 ⊢
    rw [heq5]
  · rw [htr5]
    simp [insert_binary, field_constant, numeric_constant, emit]
  · intro es j hj
    rw [execL_cons, execL_cons]
    set esK := step es (Instr.const s2.nextValue element_type.size_of_type .field)
      with hesK
    set esM := step esK (Instr.binary (s2.nextValue + 1) base_offset .mul
      s2.nextValue) with hesM
    have harr4 : array < (insert_binary base_offset .mul
        (field_constant element_type.size_of_type s2).1
        (field_constant element_type.size_of_type s2).2).2.nextValue := by
      rw [hbinv]
      omega
    have hbase4 : (insert_binary base_offset .mul
        (field_constant element_type.size_of_type s2).1
        (field_constant element_type.size_of_type s2).2).1
        < (insert_binary base_offset .mul
          (field_constant element_type.size_of_type s2).1
          (field_constant element_type.size_of_type s2).2).2.nextValue := by
      rw [hbi1, hbinv]
      omega
    have hload := hsem harr4 hbase4 esM j (by
      simpa [Tree.size_of_type] using hj)
    rw [hbi1] at hload
    have hMarr : esM.env array = es.env array := by
      rw [hesM, hesK]
      rw [step_env_ne, step_env_ne]
      · intro rr hrr
        simp [Instr.res] at hrr
        omega
      · intro rr hrr
        simp [Instr.res] at hrr
        omega
    have hKoff : esK.env base_offset = es.env base_offset := by
      rw [hesK]
      apply step_env_ne
      intro rr hrr
      simp [Instr.res] at hrr
      omega
    have hKn : esK.env s2.nextValue = element_type.size_of_type := by
      rw [hesK]
      simp [step, updFn]
    have hMmul : esM.env (s2.nextValue + 1)
        = es.env base_offset * element_type.size_of_type := by
      rw [hesM]
      show updFn esK.env (s2.nextValue + 1)
        (denoteOp .mul (esK.env base_offset) (esK.env s2.nextValue))
          (s2.nextValue + 1) = _
      rw [updFn, if_pos rfl]
      simp only [denoteOp]
      rw [hKoff, hKn]
    have hMmem : esM.mem = es.mem := by
      rw [hesM, hesK]
      rfl
    rw [hload, hMarr, hMmul, hMmem]
    congr 1
    omega

theorem codegen_index_spec_witness :
    ∃ vals s', codegen_index (.lit (.int 7 .field)) (.lit (.int 1 .field))
        (.leaf .field) initState = some (vals, s') ∧
      Tree.shape vals = Tree.shape (Tree.leaf Typ.field) ∧
      ∃ d, s'.trace = (BState.mk
          [Block.mk [] [Instr.const 0 7 Typ.field, Instr.const 1 1 Typ.field] none]
          0 2
          [Instr.const 0 7 Typ.field, Instr.const 1 1 Typ.field]
          [(1, Typ.field), (0, Typ.field)]).trace
          ++ (Instr.const 2 (Tree.size_of_type (Tree.leaf Typ.field)) .field
             :: Instr.binary 3 1 .mul 2 :: d) ∧
        (∀ i ∈ d, i.isConst = true ∨ i.isAddOf = true ∨ i.isLoad = true) ∧
        d.filterMap Instr.loadTy = (Tree.leaf Typ.field).flatten ∧
        (∀ es : EState, ∀ j, j < Tree.size_of_type (Tree.leaf Typ.field) →
          (execL es (Instr.const 2 (Tree.size_of_type (Tree.leaf Typ.field)) .field
              :: Instr.binary 3 1 .mul 2 :: d)).env
              ((vals.flatten.getD j (Value.normal 0)).eval)
            = es.mem (es.env 0
                + (es.env 1 * Tree.size_of_type (Tree.leaf Typ.field) + j))) := by
  exact codegen_index_spec (.lit (.int 7 .field)) (.lit (.int 1 .field))
    (.leaf .field) initState
    (BState.mk [Block.mk [] [Instr.const 0 7 Typ.field] none] 0 1
      [Instr.const 0 7 Typ.field] [(0, Typ.field)])
    (BState.mk
      [Block.mk [] [Instr.const 0 7 Typ.field, Instr.const 1 1 Typ.field] none]
      0 2 [Instr.const 0 7 Typ.field, Instr.const 1 1 Typ.field]
      [(1, Typ.field), (0, Typ.field)])
    0 1
    (by simp [codegen_non_tuple_expression, codegen_expression, codegen_literal,
      numeric_constant, emit, initState, modifyAt, Value.eval])
    (by simp [codegen_non_tuple_expression, codegen_expression, codegen_literal,
      numeric_constant, emit, initState, modifyAt, Value.eval])
    (by simp)
    (by simp)

theorem getD_append_singleton (l : List Block) (b d : Block) :
    (l ++ [b]).getD l.length d = b := by
  induction l with
  | nil => rfl
  | cons x xs ih =>
    simp only [List.cons_append, List.length_cons, List.getD_cons_succ]
    exact ih

theorem codegen_if_end_spec (tb : Nat) (tv ev : Values) (typ : Tree Typ)
    (s8 : BState) (hcur : s8.cur < s8.blocks.length) (hcurne : s8.cur ≠ tb)
    (htb : tb < s8.blocks.length) :
    ∃ res s', codegen_if_end tb tv ev typ s8 = (res, s') ∧
      s'.blocks.length = s8.blocks.length + 1 ∧
      s'.cur = s8.blocks.length ∧
      (blockAt s' s8.blocks.length).params.length = typ.size_of_type ∧
      (blockAt s' s8.blocks.length).params.map Prod.snd = typ.flatten ∧
      Tree.shape res = Tree.shape typ ∧
      res.flatten.map Value.eval
        = (blockAt s' s8.blocks.length).params.map Prod.fst ∧
      (blockAt s' tb).term = some (.jmp s8.blocks.length (into_value_list tv)) ∧
      (blockAt s' s8.cur).term
        = some (.jmp s8.blocks.length (into_value_list ev)) := by
  obtain ⟨res, s10, heq, hsh, hfl, hnv, htr, hcur10, hbl, hob, hpar⟩ :=
    mtp_tree (insert_block s8).1 typ (insert_block s8).2
  have hib1 : (insert_block s8).1 = s8.blocks.length := rfl
  have hcur9 : (insert_block s8).2.cur = s8.cur := rfl
  have hbl9 : (insert_block s8).2.blocks.length = s8.blocks.length + 1 := by
    simp [insert_block]
  have hcur10' : s10.cur = s8.cur := by rw [hcur10, hcur9]
  have hbl10 : s10.blocks.length = s8.blocks.length + 1 := by rw [hbl, hbl9]
  refine ⟨res, switch_to_block (insert_block s8).1
      (terminate_with_jmp (insert_block s8).1 (into_value_list tv)
        (switch_to_block tb
          (terminate_with_jmp (insert_block s8).1 (into_value_list ev) s10))),
    ?_, ?_, ?_, ?_, ?_, hsh, ?_, ?_, ?_⟩
  · simp only [codegen_if_end, insert_block] at heq ⊢
    rw [heq]
  · simp only [switch_to_block, terminate_with_jmp, modifyAt_length]
    exact hbl10
  · simp only [switch_to_block]
    exact hib1 ▸ rfl
  · have hparams := hpar (by rw [hib1, hbl9]; omega)
    have hblockAt9 : blockAt (insert_block s8).2 (insert_block s8).1 = {} := by
      simp only [blockAt, insert_block]
      exact getD_append_singleton _ _ _
    rw [hblockAt9] at hparams
    simp only [blockAt, switch_to_block, terminate_with_jmp]
    rw [getD_modifyAt_ne _ _ _ _ _ (by omega)]
    rw [getD_modifyAt_ne _ _ _ _ _ (by rw [hcur10']; omega)]
    show ((blockAt s10 s8.blocks.length).params).length = _
    rw [show blockAt s10 s8.blocks.length = blockAt s10 (insert_block s8).1 from rfl]
    rw [hparams]
    simp [Tree.size_of_type, List.length_zip]
  · have hparams := hpar (by rw [hib1, hbl9]; omega)
    have hblockAt9 : blockAt (insert_block s8).2 (insert_block s8).1 = {} := by
      simp only [blockAt, insert_block]
      exact getD_append_singleton _ _ _
    rw [hblockAt9] at hparams
    simp only [blockAt, switch_to_block, terminate_with_jmp]
    rw [getD_modifyAt_ne _ _ _ _ _ (by omega)]
    rw [getD_modifyAt_ne _ _ _ _ _ (by rw [hcur10']; omega)]
    show ((blockAt s10 s8.blocks.length).params).map Prod.snd = _
    rw [show blockAt s10 s8.blocks.length = blockAt s10 (insert_block s8).1 from rfl]
    rw [hparams]
    simp only [List.nil_append]
    exact List.map_snd_zip _ _ (by simp)
  · have hparams := hpar (by rw [hib1, hbl9]; omega)
    have hblockAt9 : blockAt (insert_block s8).2 (insert_block s8).1 = {} := by
      simp only [blockAt, insert_block]
      exact getD_append_singleton _ _ _
    rw [hblockAt9] at hparams
    simp only [blockAt, switch_to_block, terminate_with_jmp]
    rw [getD_modifyAt_ne _ _ _ _ _ (by omega)]
    rw [getD_modifyAt_ne _ _ _ _ _ (by rw [hcur10']; omega)]
    show res.flatten.map Value.eval
      = ((blockAt s10 s8.blocks.length).params).map Prod.fst
    rw [show blockAt s10 s8.blocks.length = blockAt s10 (insert_block s8).1 from rfl]
    rw [hparams]
    simp only [List.nil_append]
    rw [List.map_fst_zip _ _ (by simp)]
    rw [hfl]
  · simp only [blockAt, switch_to_block, terminate_with_jmp]
    rw [getD_modifyAt_self _ _ _ _ (by rw [modifyAt_length, hbl10]; omega)]
    rw [hib1]
  · simp only [blockAt, switch_to_block, terminate_with_jmp]
    rw [getD_modifyAt_ne _ _ _ _ _ hcurne]
    rw [show s8.cur = s10.cur from hcur10'.symm]
    rw [getD_modifyAt_self _ _ _ _ (by rw [hbl10]; omega)]
    rw [hib1]

/-- C1: an if-expression with both branches: after translating the
condition and the two branch bodies, codegen_if creates a new end block
whose parameter list has exactly one parameter per leaf of the static
result type, typed by those leaves in depth-first order; the then block
and the block in which the else translation ended are each terminated
with an unconditional jump to the end block carrying exactly L arguments
(the flattened leaves of the respective branch value), translation
resumes at the end block, and the returned value tree is rebuilt from the
end block's parameters in the shape of the result type. -/
theorem codegen_if_with_else (cond cons alt : Expr) (typ : Tree Typ)
    (s0 s1 s6 s8 : BState) (c : Nat) (tv ev : Values)
    (hc : codegen_non_tuple_expression cond s0 = some (c, s1))
    (ht : codegen_expression cons (switch_to_block (insert_block s1).1
        (terminate_with_jmpif c (insert_block s1).1
          (insert_block (insert_block s1).2).1
          (insert_block (insert_block s1).2).2)) = some (tv, s6))
    (he : codegen_expression alt (switch_to_block
        (insert_block (insert_block s1).2).1 s6) = some (ev, s8))
    (hLt : (Tree.flatten tv).length = typ.size_of_type)
    (hLe : (Tree.flatten ev).length = typ.size_of_type)
    (hcur : s8.cur < s8.blocks.length)
    (hcurne : s8.cur ≠ s1.blocks.length)
    (htb : s1.blocks.length < s8.blocks.length) :
    ∃ res s', codegen_if cond cons (some alt) typ s0 = some (res, s') ∧
      s'.blocks.length = s8.blocks.length + 1 ∧
      s'.cur = s8.blocks.length ∧
      (blockAt s' s8.blocks.length).params.length = typ.size_of_type ∧
      (blockAt s' s8.blocks.length).params.map Prod.snd = typ.flatten ∧
      Tree.shape res = Tree.shape typ ∧
      res.flatten.map Value.eval
        = (blockAt s' s8.blocks.length).params.map Prod.fst ∧
      (blockAt s' s1.blocks.length).term
        = some (.jmp s8.blocks.length (into_value_list tv)) ∧
      (into_value_list tv).length = typ.size_of_type ∧
      (blockAt s' s8.cur).term
        = some (.jmp s8.blocks.length (into_value_list ev)) ∧
      (into_value_list ev).length = typ.size_of_type := by
  obtain ⟨res, s', hend, hbl, hcur', hplen, hpsnd, hshape, hpfst, htbterm, hecterm⟩ :=
    codegen_if_end_spec s1.blocks.length tv ev typ s8 hcur hcurne htb
  refine ⟨res, s', ?_, hbl, hcur', hplen, hpsnd, hshape, hpfst, htbterm, ?_,
    hecterm, ?_⟩
  · rw [codegen_if]
    rw [hc, obind_some]
    simp only []
    rw [ht, obind_some]
    simp only []
    rw [he, obind_some]
    rw [show (insert_block s1).1 = s1.blocks.length from rfl]
    rw [hend]
  · simp [into_value_list, hLt]
  · simp [into_value_list, hLe]

theorem codegen_if_with_else_witness :
    ∃ res s', codegen_if (.lit (.bool true)) (.lit (.int 1 .field))
        (some (.lit (.int 2 .field))) (.leaf .field) initState
        = some (res, s') ∧
      s'.blocks.length = 3 + 1 ∧
      s'.cur = 3 ∧
      (blockAt s' 3).params.length = Tree.size_of_type (Tree.leaf Typ.field) ∧
      (blockAt s' 3).params.map Prod.snd = (Tree.leaf Typ.field).flatten ∧
      Tree.shape res = Tree.shape (Tree.leaf Typ.field) ∧
      res.flatten.map Value.eval = (blockAt s' 3).params.map Prod.fst ∧
      (blockAt s' 1).term
        = some (.jmp 3 (into_value_list (.leaf (.normal 1)))) ∧
      (into_value_list (.leaf (.normal 1))).length
        = Tree.size_of_type (Tree.leaf Typ.field) ∧
      (blockAt s' 2).term
        = some (.jmp 3 (into_value_list (.leaf (.normal 2)))) ∧
      (into_value_list (.leaf (.normal 2))).length
        = Tree.size_of_type (Tree.leaf Typ.field) := by
  have h := codegen_if_with_else (.lit (.bool true)) (.lit (.int 1 .field))
    (.lit (.int 2 .field)) (.leaf .field) initState
    (BState.mk [Block.mk [] [.const 0 1 .bool] none] 0 1 [.const 0 1 .bool]
      [(0, Typ.bool)])
    (BState.mk
      [Block.mk [] [.const 0 1 .bool] (some (.jmpif 0 1 2)),
       Block.mk [] [.const 1 1 .field] none,
       Block.mk [] [] none]
      1 2 [.const 0 1 .bool, .const 1 1 .field]
      [(1, Typ.field), (0, Typ.bool)])
    (BState.mk
      [Block.mk [] [.const 0 1 .bool] (some (.jmpif 0 1 2)),
       Block.mk [] [.const 1 1 .field] none,
       Block.mk [] [.const 2 2 .field] none]
      2 3 [.const 0 1 .bool, .const 1 1 .field, .const 2 2 .field]
      [(2, Typ.field), (1, Typ.field), (0, Typ.bool)])
    0 (.leaf (.normal 1)) (.leaf (.normal 2))
    (by simp [codegen_non_tuple_expression, codegen_expression, codegen_literal,
      numeric_constant, emit, initState, modifyAt, Value.eval])
    (by simp [codegen_expression, codegen_literal, numeric_constant, emit,
      initState, modifyAt, insert_block, switch_to_block, terminate_with_jmpif])
    (by simp [codegen_expression, codegen_literal, numeric_constant, emit,
      initState, modifyAt, insert_block, switch_to_block, terminate_with_jmpif])
    (by simp [Tree.flatten, Tree.size_of_type])
    (by simp [Tree.flatten, Tree.size_of_type])
    (by simp)
    (by simp)
    (by simp)
  simpa using h

/-- C7: an if-expression without an else branch creates only the then and
the else block (no fourth block): the block where the then-translation
ended is terminated with an argument-less unconditional jump to the else
block, translation resumes in the else block, and the result is the unit
value. -/
theorem codegen_if_no_else (cond cons : Expr) (typ : Tree Typ)
    (s0 s1 s6 : BState) (c : Nat) (tv : Values)
    (hc : codegen_non_tuple_expression cond s0 = some (c, s1))
    (ht : codegen_expression cons (switch_to_block (insert_block s1).1
        (terminate_with_jmpif c (insert_block s1).1
          (insert_block (insert_block s1).2).1
          (insert_block (insert_block s1).2).2)) = some (tv, s6))
    (hcur : s6.cur < s6.blocks.length) :
    codegen_if cond cons none typ s0
      = some (unit_value, switch_to_block (s1.blocks.length + 1)
          (terminate_with_jmp (s1.blocks.length + 1) [] s6)) ∧
    (blockAt (switch_to_block (s1.blocks.length + 1)
        (terminate_with_jmp (s1.blocks.length + 1) [] s6)) s6.cur).term
      = some (.jmp (s1.blocks.length + 1) []) ∧
    (switch_to_block (s1.blocks.length + 1)
        (terminate_with_jmp (s1.blocks.length + 1) [] s6)).cur
      = s1.blocks.length + 1 ∧
    (switch_to_block (s1.blocks.length + 1)
        (terminate_with_jmp (s1.blocks.length + 1) [] s6)).blocks.length
      = s6.blocks.length := by
  have heb : (insert_block (insert_block s1).2).1 = s1.blocks.length + 1 := by
    simp [insert_block]
  refine ⟨?_, ?_, rfl, ?_⟩
  · rw [codegen_if]
    rw [hc, obind_some]
    simp only []
    rw [ht, obind_some]
    rw [heb]
  · simp only [blockAt, switch_to_block, terminate_with_jmp]
    rw [getD_modifyAt_self _ _ _ _ hcur]
  · simp only [switch_to_block, terminate_with_jmp, modifyAt_length]

theorem codegen_if_no_else_witness :
    codegen_if (.lit (.bool true)) (.lit (.int 1 .field)) none (.branch [])
        initState
      = some (unit_value, switch_to_block 2 (terminate_with_jmp 2 []
          (BState.mk
            [Block.mk [] [.const 0 1 .bool] (some (.jmpif 0 1 2)),
             Block.mk [] [.const 1 1 .field] none,
             Block.mk [] [] none]
            1 2 [.const 0 1 .bool, .const 1 1 .field]
            [(1, Typ.field), (0, Typ.bool)]))) := by
  have h := codegen_if_no_else (.lit (.bool true)) (.lit (.int 1 .field))
    (.branch []) initState
    (BState.mk [Block.mk [] [.const 0 1 .bool] none] 0 1 [.const 0 1 .bool]
      [(0, Typ.bool)])
    (BState.mk
      [Block.mk [] [.const 0 1 .bool] (some (.jmpif 0 1 2)),
       Block.mk [] [.const 1 1 .field] none,
       Block.mk [] [] none]
      1 2 [.const 0 1 .bool, .const 1 1 .field]
      [(1, Typ.field), (0, Typ.bool)])
    0 (.leaf (.normal 1))
    (by simp [codegen_non_tuple_expression, codegen_expression, codegen_literal,
      numeric_constant, emit, initState, modifyAt, Value.eval])
    (by simp [codegen_expression, codegen_literal, numeric_constant, emit,
      initState, modifyAt, insert_block, switch_to_block, terminate_with_jmpif])
    (by simp)
  simpa using h.1

/-- C4 (round trip): translating an array literal whose elements are pure
literal trees of K leaves each, and then an index expression over it at a
constant in-range element index e, yields a value tree with exactly K
leaves; executing the emitted instructions makes those K leaves evaluate
to exactly the K literal leaf values of element e, unchanged and in
depth-first order (the loads read the offsets e×K … e×K+K−1 written by
the stores). -/
theorem array_literal_index_roundtrip
    (contents : List Expr) (element_type : Tree Typ) (e : Nat) (s0 : BState)
    (hlit : isLitList contents = true)
    (hK : ∀ cE ∈ contents, (litLeaves cE).length = element_type.size_of_type)
    (he : e < contents.length)
    (hsz : element_type.size_of_type * contents.length < 4294967296) :
    ∃ vals s', codegen_expression
        (.index (.lit (.arr contents element_type)) (.lit (.int e .field))
          element_type) s0 = some (vals, s') ∧
      vals.flatten.length = element_type.size_of_type ∧
      ∀ es0 : EState, ∀ j, j < element_type.size_of_type →
        (execL es0 (s'.trace.drop s0.trace.length)).env
            ((vals.flatten.getD j (Value.normal 0)).eval)
          = (litLeaves (contents.getD e (.tuple []))).getD j 0 := by
  obtain ⟨elements, s1, heqL, hflL, hlnL, hnvL, hcurL, dL, htrL, hconstL, hresL,
    henvL, hmemL, hallocL, hsemL⟩ := pl_list contents s0 hlit
  have hNlen : elements.length = contents.length := by
    have := congrArg List.length hlnL
    simpa using this
  have hKel : ∀ t ∈ elements, t.flatten.length = element_type.size_of_type := by
    intro t ht
    have hmem : t.flatten.length ∈ elements.map (fun v => v.flatten.length) :=
      List.mem_map.2 ⟨t, ht, rfl⟩
    rw [hlnL] at hmem
    obtain ⟨cE, hcE, hval⟩ := List.mem_map.1 hmem
    rw [← hval]
    exact hK cE hcE
  have hTL : (litLeavesList contents).length
      = contents.length * element_type.size_of_type := by
    have hu2 : ∀ l ∈ List.map litLeaves contents,
        l.length = element_type.size_of_type := by
      intro l hl
      obtain ⟨cE, hcE, rfl⟩ := List.mem_map.1 hl
      exact hK cE hcE
    rw [litLeavesList_eq, joinAll_length _ _ hu2, List.length_map]
  have hTLflat : (Tree.flattenList elements).length
      = (litLeavesList contents).length := by
    have := congrArg List.length hflL
    simpa using this
  have hsz' : element_type.size_of_type * elements.length < 4294967296 := by
    rw [hNlen]
    exact hsz
  -- the allocation and the store pass
  obtain ⟨s2, heqS, hnvS, hcurS, dS, htrS, halS, hsvS, hresS, henvS, hallocS,
    hsemS⟩ := fe_list s1.nextValue elements 0
      (insert_allocate (element_type.size_of_type * elements.length) s1).2
  have hnvA : (insert_allocate (element_type.size_of_type * elements.length)
      s1).2.nextValue = s1.nextValue + 1 := by
    simp [insert_allocate, emit]
  have harr_eq : codegen_array elements element_type s1
      = some (.leaf (.normal s1.nextValue), s2) := by
    rw [codegen_array, if_pos hsz']
    simp only [insert_allocate, emit] at heqS ⊢
    rw [heqS]
  have hcol : codegen_non_tuple_expression (.lit (.arr contents element_type)) s0
      = some (s1.nextValue, s2) := by
    simp only [codegen_non_tuple_expression, codegen_expression, codegen_literal,
      heqL, harr_eq, Value.eval]
  have hidx : codegen_non_tuple_expression (.lit (.int e .field)) s2
      = some (s2.nextValue, (numeric_constant e .field s2).2) := by
    simp [codegen_non_tuple_expression, codegen_expression, codegen_literal,
      numeric_constant, emit, Value.eval]
  -- the load pass
  obtain ⟨vals, s5, heq5, hsh, hln, hnv5, hcur5, hlv, dLd, htr5, hform, hlty,
    hres5, henv5, hmem5, halloc5, hsem5⟩ :=
    ld_tree s1.nextValue (insert_binary s2.nextValue .mul
        (field_constant element_type.size_of_type
          (numeric_constant e .field s2).2).1
        (field_constant element_type.size_of_type
          (numeric_constant e .field s2).2).2).1 element_type 0
      (insert_binary s2.nextValue .mul
        (field_constant element_type.size_of_type
          (numeric_constant e .field s2).2).1
        (field_constant element_type.size_of_type
          (numeric_constant e .field s2).2).2).2
  have hbi1 : (insert_binary s2.nextValue .mul
      (field_constant element_type.size_of_type
        (numeric_constant e .field s2).2).1
      (field_constant element_type.size_of_type
        (numeric_constant e .field s2).2).2).1 = s2.nextValue + 2 := by
    simp [insert_binary, field_constant, numeric_constant, emit]
  have hbinv : (insert_binary s2.nextValue .mul
      (field_constant element_type.size_of_type
        (numeric_constant e .field s2).2).1
      (field_constant element_type.size_of_type
        (numeric_constant e .field s2).2).2).2.nextValue = s2.nextValue + 3 := by
    simp [insert_binary, field_constant, numeric_constant, emit]
  have hfull : codegen_expression
      (.index (.lit (.arr contents element_type)) (.lit (.int e .field))
        element_type) s0 = some (vals, s5) := by
    rw [show codegen_expression
        (.index (.lit (.arr contents element_type)) (.lit (.int e .field))
          element_type) s0
        = codegen_index (.lit (.arr contents element_type))
          (.lit (.int e .field)) element_type s0 from by rw [codegen_expression]]
    simp only [codegen_index, hcol, hidx]
    simp only [field_constant, numeric_constant, insert_binary, emit,
      type_of_value] at heq5 ⊢
    rw [heq5]
  refine ⟨vals, s5, hfull, by rw [hln]; rfl, ?_⟩
  -- trace decomposition
  have htrA : (insert_allocate (element_type.size_of_type * elements.length)
      s1).2.trace = s1.trace
      ++ [Instr.allocate s1.nextValue
          (element_type.size_of_type * elements.length)] := by
    simp [insert_allocate, emit]
  have htrE : (numeric_constant e .field s2).2.trace
      = s2.trace ++ [Instr.const s2.nextValue e .field] := by
    simp [numeric_constant, emit]
  have htrKM : (insert_binary s2.nextValue .mul
      (field_constant element_type.size_of_type
        (numeric_constant e .field s2).2).1
      (field_constant element_type.size_of_type
        (numeric_constant e .field s2).2).2).2.trace
      = (numeric_constant e .field s2).2.trace
        ++ [Instr.const (s2.nextValue + 1) element_type.size_of_type .field,
            Instr.binary (s2.nextValue + 2) s2.nextValue .mul (s2.nextValue + 1)] := by
    simp [insert_binary, field_constant, numeric_constant, emit]
  have hDelta : s5.trace = s0.trace
      ++ (dL ++ (Instr.allocate s1.nextValue
            (element_type.size_of_type * elements.length)
          :: (dS ++ (Instr.const s2.nextValue e .field
          :: Instr.const (s2.nextValue + 1) element_type.size_of_type .field
          :: Instr.binary (s2.nextValue + 2) s2.nextValue .mul (s2.nextValue + 1)
          :: dLd)))) := by
    rw [htr5, htrKM, htrE, htrS, htrA, htrL]
    simp [List.append_assoc]
  intro es0 j hj
  rw [hDelta, List.drop_left]
  rw [execL_append, execL_cons, execL_append, execL_cons, execL_cons, execL_cons]
  set es1 := execL es0 dL with hes1
  set es2 := step es1 (Instr.allocate s1.nextValue
    (element_type.size_of_type * elements.length)) with hes2
  set es3 := execL es2 dS with hes3
  set es4 := step es3 (Instr.const s2.nextValue e .field) with hes4
  set es5 := step es4 (Instr.const (s2.nextValue + 1)
    element_type.size_of_type .field) with hes5
  set es6 := step es5 (Instr.binary (s2.nextValue + 2) s2.nextValue .mul
    (s2.nextValue + 1)) with hes6
  -- apply the load semantics at es6
  have harr46 : s1.nextValue < (insert_binary s2.nextValue .mul
      (field_constant element_type.size_of_type
        (numeric_constant e .field s2).2).1
      (field_constant element_type.size_of_type
        (numeric_constant e .field s2).2).2).2.nextValue := by
    rw [hbinv]
    have := hnvS
    rw [hnvA] at this
    omega
  have hbase46 : (insert_binary s2.nextValue .mul
      (field_constant element_type.size_of_type
        (numeric_constant e .field s2).2).1
      (field_constant element_type.size_of_type
        (numeric_constant e .field s2).2).2).1
      < (insert_binary s2.nextValue .mul
        (field_constant element_type.size_of_type
          (numeric_constant e .field s2).2).1
        (field_constant element_type.size_of_type
          (numeric_constant e .field s2).2).2).2.nextValue := by
    rw [hbi1, hbinv]
    omega
  have hload := hsem5 harr46 hbase46 es6 j (by
    simpa [Tree.size_of_type] using hj)
  rw [hbi1] at hload
  rw [hload]
  -- compute the executed addresses
  have hnv12 : s1.nextValue < s2.nextValue := by
    rw [hnvA] at hnvS
    omega
  have hes6arr : es6.env s1.nextValue = es0.allocNext := by
    rw [hes6, hes5, hes4]
    rw [step_env_ne _ _ _ (by intro rr hrr; simp [Instr.res] at hrr; omega)]
    rw [step_env_ne _ _ _ (by intro rr hrr; simp [Instr.res] at hrr; omega)]
    rw [step_env_ne _ _ _ (by intro rr hrr; simp [Instr.res] at hrr; omega)]
    rw [hes3]
    rw [henvS es2 s1.nextValue (by rw [hnvA]; omega)]
    rw [hes2]
    show updFn es1.env s1.nextValue es1.allocNext s1.nextValue = es0.allocNext
    rw [updFn, if_pos rfl]
    rw [hes1, hallocL es0]
  have hes6mul : es6.env (s2.nextValue + 2)
      = e * element_type.size_of_type := by
    rw [hes6]
    show updFn es5.env (s2.nextValue + 2)
      (denoteOp .mul (es5.env s2.nextValue) (es5.env (s2.nextValue + 1)))
        (s2.nextValue + 2) = _
    rw [updFn, if_pos rfl]
    have h1 : es5.env s2.nextValue = e := by
      rw [hes5]
      rw [step_env_ne _ _ _ (by intro rr hrr; simp [Instr.res] at hrr; omega)]
      rw [hes4]
      show updFn es3.env s2.nextValue e s2.nextValue = e
      rw [updFn, if_pos rfl]
    have h2 : es5.env (s2.nextValue + 1) = element_type.size_of_type := by
      rw [hes5]
      show updFn es4.env (s2.nextValue + 1) element_type.size_of_type
        (s2.nextValue + 1) = _
      rw [updFn, if_pos rfl]
    rw [h1, h2]
    rfl
  have hes6mem : es6.mem = es3.mem := by
    rw [hes6, hes5, hes4]
    rfl
  rw [hes6arr, hes6mul, hes6mem]
  -- the memory written by the store pass
  have hflatlen : (Tree.flattenList elements).length
      = contents.length * element_type.size_of_type := by
    rw [hTLflat, hTL]
  have hp : e * element_type.size_of_type + j < (Tree.flattenList elements).length := by
    rw [hflatlen]
    calc e * element_type.size_of_type + j
        < e * element_type.size_of_type + element_type.size_of_type := by omega
      _ = (e + 1) * element_type.size_of_type := by ring
      _ ≤ contents.length * element_type.size_of_type :=
          Nat.mul_le_mul_right _ he
  have harrA : s1.nextValue < (insert_allocate
      (element_type.size_of_type * elements.length) s1).2.nextValue := by
    rw [hnvA]
    omega
  have hidsA : ∀ w ∈ Tree.flattenList elements, w.eval
      < (insert_allocate (element_type.size_of_type * elements.length)
        s1).2.nextValue := by
    intro w hw
    have hwm : w.eval ∈ (Tree.flattenList elements).map Value.eval :=
      List.mem_map.2 ⟨w, hw, rfl⟩
    rw [hflL] at hwm
    have := List.mem_range'_1.1 hwm
    rw [hnvA, hnvL]
    omega
  obtain ⟨hmemS, hotherS⟩ := hsemS harrA hidsA es2
  have hes2arr : es2.env s1.nextValue = es0.allocNext := by
    rw [hes2]
    show updFn es1.env s1.nextValue es1.allocNext s1.nextValue = es0.allocNext
    rw [updFn, if_pos rfl]
    rw [hes1, hallocL es0]
  have hstore := hmemS (e * element_type.size_of_type + j) hp
  rw [hes2arr] at hstore
  rw [show (0 : Nat) + (e * element_type.size_of_type + j)
      = e * element_type.size_of_type + j from by omega] at hstore
  rw [show e * element_type.size_of_type + (0 + j)
      = e * element_type.size_of_type + j from by omega]
  rw [hes3, hstore]
  -- the stored value is the literal leaf
  have hidp : ((Tree.flattenList elements).getD
      (e * element_type.size_of_type + j) (Value.normal 0)).eval
      = s0.nextValue + (e * element_type.size_of_type + j) := by
    have h1 : ((Tree.flattenList elements).map Value.eval).getD
        (e * element_type.size_of_type + j) 0
        = s0.nextValue + (e * element_type.size_of_type + j) := by
      rw [hflL]
      rw [List.getD_eq_getElem _ _ (by
        simp only [List.length_range']
        rw [← hTLflat]
        exact hp)]
      simp [List.getElem_range']
    rw [← h1]
    rw [List.getD_eq_getElem _ _ hp,
      List.getD_eq_getElem _ _ (by simpa using hp)]
    simp [List.getElem_map]
  rw [hidp]
  have hes2lit : es2.env (s0.nextValue + (e * element_type.size_of_type + j))
      = (litLeavesList contents).getD (e * element_type.size_of_type + j) 0 := by
    rw [hes2]
    rw [step_env_ne _ _ _ (by
      intro rr hrr
      simp [Instr.res] at hrr
      rw [hnvL] at hrr
      rw [← hTLflat] at hrr
      omega)]
    rw [hes1]
    exact hsemL es0 (e * element_type.size_of_type + j) (by rw [← hTLflat]; exact hp)
  rw [hes2lit]
  -- regroup the flat literal position into (element, leaf)
  rw [litLeavesList_eq]
  rw [joinAll_getD_uniform (contents.map litLeaves) element_type.size_of_type e j 0
    (by
      intro l hl
      obtain ⟨cE, hcE, rfl⟩ := List.mem_map.1 hl
      exact hK cE hcE)
    (by simpa using he) hj]
  congr 1
  rw [List.getD_eq_getElem _ _ (by simpa using he), List.getElem_map,
    List.getD_eq_getElem _ _ he]


/-- C8: the claimed drain behaviour is refuted by the code: the only point
that reserves a target id and enqueues a function is the call-site handler
codegen_call (mod.rs 226-228), an unimplemented todo stub that aborts, so
every call expression aborts translation instead of reserving an id (first
conjunct).  Consequently generate_ssa aborts on any program whose entry
body contains a call — in particular on the mutual-recursion scenario in
which main calls f and f and g call each other, where the claim promises
that each function is translated exactly once and the worklist empties
(second conjunct) — while on a call-free program the loop merely drains
a worklist that was never fed (third conjunct). -/
theorem generate_ssa_aborts_on_call :
    (∀ (f : Nat) (args : List Expr) (s : BState),
      codegen_expression (.call f args) s = none) ∧
    generate_ssa mutualProg = none ∧
    generate_ssa (SProgram.mk [SFunction.mk "main" (.lit (.int 0 .field))] 0)
      = some ([0], {}) := by
  refine ⟨?_, ?_, ?_⟩
  · intro f args s
    simp [codegen_expression, codegen_call]
  · simp [generate_ssa, mutualProg, codegen_expression, codegen_call]
  · simp [generate_ssa, drive_loop, pop_next_function_in_queue,
      codegen_expression, codegen_literal, numeric_constant, emit, initState,
      modifyAt]

theorem array_literal_index_roundtrip_witness :
    (isLitList [Expr.lit (.int 1 .field), Expr.lit (.int 2 .field),
        Expr.lit (.int 3 .field)] = true ∧
     (∀ cE ∈ [Expr.lit (.int 1 .field), Expr.lit (.int 2 .field),
        Expr.lit (.int 3 .field)],
       (litLeaves cE).length = Tree.size_of_type (.leaf Typ.field)) ∧
     1 < [Expr.lit (.int 1 .field), Expr.lit (.int 2 .field),
        Expr.lit (.int 3 .field)].length ∧
     Tree.size_of_type (.leaf Typ.field) * [Expr.lit (.int 1 .field),
        Expr.lit (.int 2 .field), Expr.lit (.int 3 .field)].length
       < 4294967296) ∧
    (∃ vals s', codegen_expression
        (.index (.lit (.arr [Expr.lit (.int 1 .field), Expr.lit (.int 2 .field),
            Expr.lit (.int 3 .field)] (.leaf Typ.field)))
          (.lit (.int 1 .field)) (.leaf Typ.field)) initState
        = some (vals, s') ∧
      vals.flatten.length = Tree.size_of_type (Tree.leaf Typ.field) ∧
      ∀ es0 : EState, ∀ j, j < Tree.size_of_type (Tree.leaf Typ.field) →
        (execL es0 (s'.trace.drop initState.trace.length)).env
            ((vals.flatten.getD j (Value.normal 0)).eval)
          = (litLeaves ([Expr.lit (.int 1 .field), Expr.lit (.int 2 .field),
              Expr.lit (.int 3 .field)].getD 1 (.tuple []))).getD j 0) := by
  have h1 : isLitList [Expr.lit (.int 1 .field), Expr.lit (.int 2 .field),
      Expr.lit (.int 3 .field)] = true := by
    simp [isLitList, isLitTree]
  have h2 : ∀ cE ∈ [Expr.lit (.int 1 .field), Expr.lit (.int 2 .field),
      Expr.lit (.int 3 .field)],
      (litLeaves cE).length = Tree.size_of_type (.leaf Typ.field) := by
    intro cE hcE
    simp only [List.mem_cons, List.not_mem_nil, or_false] at hcE
    rcases hcE with h | h | h <;> subst h <;>
      simp [litLeaves, Tree.size_of_type, Tree.flatten]
  have h3 : 1 < [Expr.lit (.int 1 .field), Expr.lit (.int 2 .field),
      Expr.lit (.int 3 .field)].length := by
    simp
  have h4 : Tree.size_of_type (Tree.leaf Typ.field) * [Expr.lit (.int 1 .field),
      Expr.lit (.int 2 .field), Expr.lit (.int 3 .field)].length
      < 4294967296 := by
    simp [Tree.size_of_type, Tree.flatten]
  exact ⟨⟨h1, h2, h3, h4⟩, array_literal_index_roundtrip
    [Expr.lit (.int 1 .field), Expr.lit (.int 2 .field), Expr.lit (.int 3 .field)]
    (.leaf Typ.field) 1 initState h1 h2 h3 h4⟩

end SsaGen
